import Mathlib

/-!
Shallow embedding of the MuleGuard fraud-intelligence engine
(backend/app: graph_builder, cycle_detector, ring_manager, smurf_detector,
shell_detector, anomaly_detector, scoring_engine, and the pipeline in
main.py's upload handler), together with theorems settling the spec claims.

Conventions of the embedding:
* a pandas DataFrame of transactions is a `List Transaction`;
* timestamps are integers (epoch seconds), amounts are rationals;
* a networkx `DiGraph` is a node list plus an association list of edges
  keyed by the ordered endpoint pair (networkx collapses parallel edges:
  re-adding an existing edge overwrites its attribute dictionary);
* Python dicts are association lists updated by `updAssoc` (first-insertion
  key order, last-assignment value), or plain functions where the code only
  ever reads with a default (`dict.get(k, 0)`);
* the SQLAlchemy suspicion-history table is a map
  `String → Option MemRec`.
-/

/-- One row of the uploaded CSV (a validated transaction record). -/
structure Transaction where
  transaction_id : String
  sender_id : String
  receiver_id : String
  amount : ℚ
  timestamp : ℤ
  deriving DecidableEq, Repr

/-- The attribute dictionary a transaction edge carries. -/
structure EdgeData where
  amount : ℚ
  timestamp : ℤ
  deriving DecidableEq, Repr

/-- A networkx `DiGraph`: nodes plus edges keyed by ordered endpoint pair.
The key list is unique by construction (`updAssoc` overwrites). -/
structure DiGraph where
  nodes : List String
  edges : List ((String × String) × EdgeData)
  deriving DecidableEq, Repr

/-- Python-dict assignment `m[k] = v`: overwrite the value if the key is
present (keeping its position), else append the new binding. -/
def updAssoc {K V : Type} [DecidableEq K] (m : List (K × V)) (k : K) (v : V) :
    List (K × V) :=
  if m.any (fun p => decide (p.1 = k)) then
    m.map (fun p => if p.1 = k then (k, v) else p)
  else m ++ [(k, v)]

/-- Python-dict read `m.get(k)`: value of the first binding of `k`. -/
def lookupKey {K V : Type} [DecidableEq K] (m : List (K × V)) (k : K) :
    Option V :=
  (m.find? (fun p => decide (p.1 = k))).map Prod.snd

/-- `G.add_node(v)` of networkx: a no-op when the node exists. -/
def DiGraph.add_node (G : DiGraph) (v : String) : DiGraph :=
  if v ∈ G.nodes then G else { G with nodes := G.nodes ++ [v] }

/-- `G.add_edge(u, v, amount=a, timestamp=t)` of networkx `DiGraph`:
adds missing endpoints, then overwrites (or creates) the single edge
keyed `(u, v)` with the new attributes. -/
def DiGraph.add_edge (G : DiGraph) (u v : String) (a : ℚ) (t : ℤ) : DiGraph :=
  let G' := (G.add_node u).add_node v
  { G' with edges := updAssoc G'.edges (u, v) ⟨a, t⟩ }

/-- `build_transaction_graph` of `graph_builder.py`: for every row add both
endpoints as nodes and one directed edge `sender→receiver` carrying the
row's amount and timestamp. -/
def build_transaction_graph (df : List Transaction) : DiGraph :=
  df.foldl
    (fun G row =>
      ((G.add_node row.sender_id).add_node row.receiver_id).add_edge
        row.sender_id row.receiver_id row.amount row.timestamp)
    ⟨[], []⟩

/-- Number of edges into `v` (networkx `in_degree`; edge keys are unique,
so this counts distinct predecessors). -/
def DiGraph.in_degree (G : DiGraph) (v : String) : ℕ :=
  (G.edges.filter (fun e => decide (e.1.2 = v))).length

/-- Number of edges out of `v` (networkx `out_degree`). -/
def DiGraph.out_degree (G : DiGraph) (v : String) : ℕ :=
  (G.edges.filter (fun e => decide (e.1.1 = v))).length

/-- Edge relation of the graph. -/
def DiGraph.adj (G : DiGraph) (u v : String) : Prop :=
  (u, v) ∈ G.edges.map Prod.fst

instance (G : DiGraph) (u v : String) : Decidable (G.adj u v) :=
  inferInstanceAs (Decidable ((u, v) ∈ G.edges.map Prod.fst))

/-- Executable chain check (kernel-reducible replacement for the
tactic-defined `Decidable` instances on `List.Chain`). -/
def chainB {A : Type} (R : A -> A -> Bool) : A -> List A -> Bool
  | _, [] => true
  | a, b :: l => R a b && chainB R b l

theorem chainB_iff {A : Type} (R : A -> A -> Prop) [DecidableRel R] :
    forall (a : A) (l : List A),
      (chainB (fun x y => decide (R x y)) a l = true <-> List.Chain R a l) := by
  intro a l
  induction l generalizing a with
  | nil =>
    constructor
    · intro _; exact List.Chain.nil
    · intro _; rfl
  | cons b t ih =>
    rw [List.chain_cons]
    show (decide (R a b) && chainB (fun x y => decide (R x y)) b t) = true ↔ _
    rw [Bool.and_eq_true, decide_eq_true_eq, ih]

instance (priority := 2000) decChainFast {A : Type} (R : A -> A -> Prop)
    [DecidableRel R] (a : A) (l : List A) : Decidable (List.Chain R a l) :=
  decidable_of_iff _ (chainB_iff R a l)

instance (priority := 2000) decChainFast' {A : Type} (R : A -> A -> Prop)
    [DecidableRel R] (l : List A) : Decidable (List.Chain' R l) :=
  match l with
  | [] => isTrue trivial
  | a :: t => decidable_of_iff _ (chainB_iff R a t)

/-- A suspicious-account record as produced by the detectors. -/
structure AccountRec where
  account_id : String
  detected_patterns : List String
  ring_id : String
  deriving DecidableEq, Repr

/-- A fraud-ring record. -/
structure FraudRing where
  ring_id : String
  member_accounts : List String
  pattern_type : String
  deriving DecidableEq, Repr

/-- The account-deduplication step of `main.py` (`unique_accounts` dict):
`for acc in suspicious_accounts: unique_accounts[acc["account_id"]] = acc`
followed by `list(unique_accounts.values())`. -/
def dedupAccounts (accounts : List AccountRec) : List AccountRec :=
  (accounts.foldl (fun m acc => updAssoc m acc.account_id acc) []).map Prod.snd

section AssocLemmas

variable {K V : Type} [DecidableEq K]

theorem lookupKey_nil (k : K) : lookupKey ([] : List (K × V)) k = none := rfl

theorem lookupKey_append (m m' : List (K × V)) (k : K) :
    lookupKey (m ++ m') k = (lookupKey m k).or (lookupKey m' k) := by
  unfold lookupKey
  rw [List.find?_append]
  cases m.find? (fun p => decide (p.1 = k)) <;> simp

theorem lookupKey_updAssoc (m : List (K × V)) (k k' : K) (v : V) :
    lookupKey (updAssoc m k v) k' =
      if k' = k then some v else lookupKey m k' := by
  unfold updAssoc
  split
  · rename_i hany
    by_cases hk : k' = k
    · subst hk
      simp only [if_pos rfl]
      obtain ⟨p, hp, hpk⟩ := List.any_eq_true.mp hany
      unfold lookupKey
      rw [List.find?_map]
      have hcong : (fun p : K × V => decide (p.1 = k')) ∘
          (fun p : K × V => if p.1 = k' then (k', v) else p) =
          fun p : K × V => decide (p.1 = k') := by
        funext q
        by_cases hq : q.1 = k' <;> simp [hq]
      rw [hcong]
      have hsome : (m.find? (fun p => decide (p.1 = k'))).isSome := by
        rw [List.find?_isSome]
        exact ⟨p, hp, hpk⟩
      obtain ⟨q, hq⟩ := Option.isSome_iff_exists.mp hsome
      have hqk : q.1 = k' := by
        have := List.find?_some hq
        simpa using this
      simp [hq, hqk]
    · simp only [if_neg hk]
      unfold lookupKey
      rw [List.find?_map]
      have hcong : (fun p : K × V => decide (p.1 = k')) ∘
          (fun p : K × V => if p.1 = k then (k, v) else p) =
          fun p : K × V => decide (p.1 = k') := by
        funext q
        by_cases hq : q.1 = k
        · simp [hq, Ne.symm hk, hk]
        · simp [hq]
      rw [hcong]
      cases hfind : m.find? (fun p => decide (p.1 = k')) with
      | none => simp
      | some q =>
        have hqk : q.1 = k' := by
          have := List.find?_some hfind
          simpa using this
        have hqne : ¬ q.1 = k := by rw [hqk]; exact hk
        simp [hqne]
  · rename_i hany
    rw [lookupKey_append]
    by_cases hk : k' = k
    · subst hk
      have hnone : lookupKey m k' = none := by
        unfold lookupKey
        rw [List.find?_eq_none.mpr]
        · rfl
        · intro p hp
          simp only [List.any_eq_true, not_exists, not_and] at hany
          simpa using hany p hp
      have hone : lookupKey [(k', v)] k' = some v := by
        unfold lookupKey
        simp [List.find?]
      rw [hnone, hone]
      simp
    · have hk' : ¬ k = k' := fun h => hk h.symm
      have hone : lookupKey [(k, v)] k' = none := by
        unfold lookupKey
        simp [List.find?, hk']
      rw [hone]
      simp [hk]

theorem option_map_or {A B : Type} (o o' : Option A) (f : A → B) :
    (o.or o').map f = (o.map f).or (o'.map f) := by
  cases o <;> simp

theorem lookupKey_foldl_updAssoc {α : Type} (key : α → K) (val : α → V)
    (l : List α) (m0 : List (K × V)) (k : K) :
    lookupKey (l.foldl (fun m x => updAssoc m (key x) (val x)) m0) k =
      (((l.filter (fun x => decide (key x = k))).getLast?).map val).or
        (lookupKey m0 k) := by
  induction l generalizing m0 with
  | nil => simp
  | cons x t ih =>
    simp only [List.foldl_cons]
    rw [ih, lookupKey_updAssoc, List.filter_cons]
    by_cases hx : key x = k
    · rw [if_pos (decide_eq_true hx), if_pos hx.symm]
      have hcons : (x :: List.filter (fun y => decide (key y = k)) t) =
          [x] ++ List.filter (fun y => decide (key y = k)) t := rfl
      rw [hcons, List.getLast?_append, option_map_or]
      cases hfil : (List.filter (fun y => decide (key y = k)) t).getLast? <;>
        simp
    · rw [if_neg (fun h => hx (of_decide_eq_true h)),
        if_neg (fun h => hx h.symm)]

end AssocLemmas

section DedupLemmas

/-- Every entry of `updAssoc m k v` is an old entry or the new binding. -/
theorem updAssoc_mem {K V : Type} [DecidableEq K] {m : List (K × V)}
    {k : K} {v : V} {q : K × V} (hq : q ∈ updAssoc m k v) :
    q ∈ m ∨ q = (k, v) := by
  unfold updAssoc at hq
  split at hq
  · obtain ⟨p, hp, hpq⟩ := List.mem_map.mp hq
    by_cases hpk : p.1 = k
    · right; rw [← hpq]; simp [hpk]
    · left; rw [← hpq]; simpa [hpk] using hp
  · rcases List.mem_append.mp hq with h | h
    · exact Or.inl h
    · right; simpa using h

/-- `updAssoc` preserves distinctness of the keys. -/
theorem updAssoc_keys_nodup {K V : Type} [DecidableEq K] {m : List (K × V)}
    (h : (m.map Prod.fst).Nodup) (k : K) (v : V) :
    ((updAssoc m k v).map Prod.fst).Nodup := by
  unfold updAssoc
  split
  · have : (m.map (fun p => if p.1 = k then (k, v) else p)).map Prod.fst =
        m.map Prod.fst := by
      rw [List.map_map]
      apply List.map_congr_left
      intro p _
      by_cases hp : p.1 = k <;> simp [hp]
    rw [this]; exact h
  · rename_i hany
    rw [List.map_append]
    simp only [List.map_cons, List.map_nil]
    rw [List.nodup_append]
    refine ⟨h, List.nodup_singleton k, ?_⟩
    intro a ha hb
    simp only [List.mem_singleton] at hb
    subst hb
    obtain ⟨p, hp, hpk⟩ := List.mem_map.mp ha
    exact absurd (List.any_eq_true.mpr ⟨p, hp, by simp [hpk]⟩) hany

/-- The dict built by the dedup fold of `main.py`. -/
def dedupMap (accounts : List AccountRec) : List (String × AccountRec) :=
  accounts.foldl (fun m acc => updAssoc m acc.account_id acc) []

/-- Invariant of the dedup dict: keys are distinct and each entry is keyed
by its value's account id. -/
theorem dedupMap_invariant (accounts : List AccountRec) :
    ((dedupMap accounts).map Prod.fst).Nodup ∧
      ∀ q ∈ dedupMap accounts, q.1 = q.2.account_id := by
  unfold dedupMap
  suffices h : ∀ m0 : List (String × AccountRec),
      (m0.map Prod.fst).Nodup → (∀ q ∈ m0, q.1 = q.2.account_id) →
      ((accounts.foldl (fun m acc => updAssoc m acc.account_id acc) m0).map
          Prod.fst).Nodup ∧
        ∀ q ∈ accounts.foldl (fun m acc => updAssoc m acc.account_id acc) m0,
          q.1 = q.2.account_id by
    exact h [] (by simp) (by simp)
  induction accounts with
  | nil => intro m0 h1 h2; exact ⟨h1, h2⟩
  | cons acc t ih =>
    intro m0 h1 h2
    simp only [List.foldl_cons]
    apply ih
    · exact updAssoc_keys_nodup h1 _ _
    · intro q hq
      rcases updAssoc_mem hq with h | h
      · exact h2 q h
      · rw [h]

/-- Searching the dict's value list by account id agrees with key lookup,
given the key-invariant. -/
theorem find_values_eq_lookupKey (m : List (String × AccountRec))
    (hinv : ∀ q ∈ m, q.1 = q.2.account_id) (a : String) :
    (m.map Prod.snd).find? (fun r => decide (r.account_id = a)) =
      lookupKey m a := by
  induction m with
  | nil => rfl
  | cons q t ih =>
    have hq : q.1 = q.2.account_id := hinv q (by simp)
    have ht : ∀ p ∈ t, p.1 = p.2.account_id := fun p hp => hinv p (by simp [hp])
    simp only [List.map_cons, List.find?_cons]
    unfold lookupKey
    rw [List.find?_cons]
    by_cases hqa : q.2.account_id = a
    · have hk : q.1 = a := by rw [hq, hqa]
      rw [decide_eq_true hqa, decide_eq_true hk]
      rfl
    · have hk : ¬ q.1 = a := by rw [hq]; exact hqa
      rw [decide_eq_false hqa, decide_eq_false hk]
      exact ih ht

end DedupLemmas

/-- **C4** — corrected. The consolidator's dict-based dedup keeps, for every
account id, the **last**-seen record across the concatenated detector
outputs (not the first-seen one as claimed): looking up any account id in
the deduplicated list yields the last record with that id, and each
account id occurs at most once in the result. -/
theorem C4_dedup_keeps_last_record (accounts : List AccountRec) (a : String) :
    (dedupAccounts accounts).find? (fun r => decide (r.account_id = a)) =
      (accounts.filter (fun r => decide (r.account_id = a))).getLast? ∧
    ((dedupAccounts accounts).map AccountRec.account_id).Nodup := by
  obtain ⟨hkeys, hinv⟩ := dedupMap_invariant accounts
  constructor
  · have h1 : dedupAccounts accounts = (dedupMap accounts).map Prod.snd := rfl
    rw [h1, find_values_eq_lookupKey _ hinv a]
    have h2 := lookupKey_foldl_updAssoc
      (fun r : AccountRec => r.account_id) (fun r => r) accounts [] a
    simpa [dedupMap, lookupKey] using h2
  · have h1 : (dedupAccounts accounts).map AccountRec.account_id =
        (dedupMap accounts).map Prod.fst := by
      unfold dedupAccounts
      rw [List.map_map]
      apply List.map_congr_left
      intro q hq
      exact (hinv q hq).symm
    rw [h1]; exact hkeys

/-- **C4** — counterexample to the claim as stated: for two detector records
sharing account id `A` (a cycle record first, a smurfing record later),
the dedup keeps the later record, not the first-seen one. -/
theorem C4_counterexample_last_wins :
    dedupAccounts
        [⟨"A", ["cycle"], "RING_001"⟩, ⟨"A", ["smurfing"], "SMURF_001"⟩] =
      [⟨"A", ["smurfing"], "SMURF_001"⟩] ∧
    dedupAccounts
        [⟨"A", ["cycle"], "RING_001"⟩, ⟨"A", ["smurfing"], "SMURF_001"⟩] ≠
      [⟨"A", ["cycle"], "RING_001"⟩] := by
  constructor
  · rfl
  · decide

section BuilderLemmas

theorem add_node_edges (G : DiGraph) (v : String) :
    (G.add_node v).edges = G.edges := by
  unfold DiGraph.add_node; split <;> rfl

theorem add_edge_edges (G : DiGraph) (u v : String) (a : ℚ) (t : ℤ) :
    (G.add_edge u v a t).edges = updAssoc G.edges (u, v) ⟨a, t⟩ := by
  unfold DiGraph.add_edge
  simp [add_node_edges]

/-- One fold step of `build_transaction_graph`. -/
def buildStep (G : DiGraph) (row : Transaction) : DiGraph :=
  ((G.add_node row.sender_id).add_node row.receiver_id).add_edge
    row.sender_id row.receiver_id row.amount row.timestamp

theorem build_eq_foldl (df : List Transaction) :
    build_transaction_graph df = df.foldl buildStep ⟨[], []⟩ := rfl

theorem buildStep_edges (G : DiGraph) (row : Transaction) :
    (buildStep G row).edges =
      updAssoc G.edges (row.sender_id, row.receiver_id)
        ⟨row.amount, row.timestamp⟩ := by
  unfold buildStep
  rw [add_edge_edges, add_node_edges, add_node_edges]

theorem build_edges (df : List Transaction) :
    (build_transaction_graph df).edges =
      df.foldl
        (fun e row =>
          updAssoc e (row.sender_id, row.receiver_id)
            ⟨row.amount, row.timestamp⟩) [] := by
  rw [build_eq_foldl]
  suffices h : ∀ G0 : DiGraph, (df.foldl buildStep G0).edges =
      df.foldl
        (fun e row =>
          updAssoc e (row.sender_id, row.receiver_id)
            ⟨row.amount, row.timestamp⟩) G0.edges from h ⟨[], []⟩
  induction df with
  | nil => intro G0; rfl
  | cons x t ih =>
    intro G0
    simp only [List.foldl_cons]
    rw [ih, buildStep_edges]

theorem mem_nodes_add_node {G : DiGraph} {w : String} (h : w ∈ G.nodes)
    (v : String) : w ∈ (G.add_node v).nodes := by
  unfold DiGraph.add_node
  split
  · exact h
  · simp [h]

theorem self_mem_add_node (G : DiGraph) (v : String) :
    v ∈ (G.add_node v).nodes := by
  unfold DiGraph.add_node
  split
  · assumption
  · simp

theorem mem_nodes_add_edge {G : DiGraph} {w : String} (h : w ∈ G.nodes)
    (u v : String) (a : ℚ) (t : ℤ) : w ∈ (G.add_edge u v a t).nodes := by
  unfold DiGraph.add_edge
  exact mem_nodes_add_node (mem_nodes_add_node h u) v

theorem mem_nodes_buildStep {G : DiGraph} {w : String} (h : w ∈ G.nodes)
    (row : Transaction) : w ∈ (buildStep G row).nodes := by
  unfold buildStep
  exact mem_nodes_add_edge (mem_nodes_add_node (mem_nodes_add_node h _) _) _ _ _ _

theorem endpoints_mem_buildStep (G : DiGraph) (row : Transaction) :
    row.sender_id ∈ (buildStep G row).nodes ∧
      row.receiver_id ∈ (buildStep G row).nodes := by
  constructor
  · exact mem_nodes_add_edge
      (mem_nodes_add_node (self_mem_add_node G _) _) _ _ _ _
  · exact mem_nodes_add_edge (self_mem_add_node _ _) _ _ _ _

theorem build_endpoints_mem (df : List Transaction) :
    ∀ t ∈ df, t.sender_id ∈ (build_transaction_graph df).nodes ∧
      t.receiver_id ∈ (build_transaction_graph df).nodes := by
  rw [build_eq_foldl]
  suffices h : ∀ G0 : DiGraph, ∀ t ∈ df,
      t.sender_id ∈ (df.foldl buildStep G0).nodes ∧
        t.receiver_id ∈ (df.foldl buildStep G0).nodes from h ⟨[], []⟩
  induction df with
  | nil => intro G0 t ht; cases ht
  | cons x l ih =>
    intro G0 t ht
    simp only [List.foldl_cons]
    rcases List.mem_cons.mp ht with h | h
    · subst h
      have hmono : ∀ (l' : List Transaction) (G : DiGraph) (w : String),
          w ∈ G.nodes → w ∈ (l'.foldl buildStep G).nodes := by
        intro l'
        induction l' with
        | nil => intro G w hw; exact hw
        | cons y l'' ih2 =>
          intro G w hw
          simp only [List.foldl_cons]
          exact ih2 _ _ (mem_nodes_buildStep hw y)
      obtain ⟨h1, h2⟩ := endpoints_mem_buildStep G0 t
      exact ⟨hmono l _ _ h1, hmono l _ _ h2⟩
    · exact ih (buildStep G0 x) t h

end BuilderLemmas

/-- **C5** — corrected. The graph builder uses `nx.DiGraph()`, so the graph
is *not* a multigraph: every account appearing as sender or receiver is a
node and every transaction has an edge for its ordered pair, but the single
edge stored for an ordered pair `(u, v)` carries the amount and timestamp of
the **last** transaction `u→v` in the batch — parallel transfers are
collapsed, not kept as parallel edges. -/
theorem C5_builder_one_edge_per_pair (df : List Transaction) :
    (∀ t ∈ df, t.sender_id ∈ (build_transaction_graph df).nodes ∧
        t.receiver_id ∈ (build_transaction_graph df).nodes) ∧
    (∀ u v : String,
      lookupKey (build_transaction_graph df).edges (u, v) =
        ((df.filter
            (fun t => decide ((t.sender_id, t.receiver_id) = (u, v)))).getLast?).map
          (fun t => EdgeData.mk t.amount t.timestamp)) ∧
    (∀ t ∈ df,
      (lookupKey (build_transaction_graph df).edges
        (t.sender_id, t.receiver_id)).isSome) := by
  have hedges : ∀ u v : String,
      lookupKey (build_transaction_graph df).edges (u, v) =
        ((df.filter
            (fun t => decide ((t.sender_id, t.receiver_id) = (u, v)))).getLast?).map
          (fun t => EdgeData.mk t.amount t.timestamp) := by
    intro u v
    rw [build_edges]
    have h := lookupKey_foldl_updAssoc
      (fun t : Transaction => (t.sender_id, t.receiver_id))
      (fun t : Transaction => EdgeData.mk t.amount t.timestamp) df [] (u, v)
    simpa [lookupKey] using h
  refine ⟨build_endpoints_mem df, hedges, ?_⟩
  intro t ht
  rw [hedges t.sender_id t.receiver_id]
  have hmem : t ∈ df.filter
      (fun x => decide ((x.sender_id, x.receiver_id) =
        (t.sender_id, t.receiver_id))) :=
    List.mem_filter.mpr ⟨ht, by simp⟩
  have hne : df.filter
      (fun x => decide ((x.sender_id, x.receiver_id) =
        (t.sender_id, t.receiver_id))) ≠ [] :=
    List.ne_nil_of_mem hmem
  have hsome := List.getLast?_isSome.mpr hne
  obtain ⟨y, hy⟩ := Option.isSome_iff_exists.mp hsome
  rw [hy]
  rfl

/-- **C5** — witness for the amended theorem at a one-row batch. -/
theorem C5_builder_witness :
    "A" ∈ (build_transaction_graph [⟨"t1", "A", "B", 10, 0⟩]).nodes ∧
    (lookupKey (build_transaction_graph [⟨"t1", "A", "B", 10, 0⟩]).edges
      ("A", "B")).isSome := by
  refine ⟨?_, ?_⟩
  · exact ((C5_builder_one_edge_per_pair [⟨"t1", "A", "B", 10, 0⟩]).1
      ⟨"t1", "A", "B", 10, 0⟩ (by simp)).1
  · exact (C5_builder_one_edge_per_pair [⟨"t1", "A", "B", 10, 0⟩]).2.2
      ⟨"t1", "A", "B", 10, 0⟩ (by simp)

/-- **C5** — counterexample to the multigraph claim: two parallel `A→B`
transactions produce a single edge carrying the second one's attributes. -/
theorem C5_counterexample_parallel_collapsed :
    (build_transaction_graph
        [⟨"t1", "A", "B", 10, 0⟩, ⟨"t2", "A", "B", 20, 5⟩]).edges =
      [(("A", "B"), ⟨20, 5⟩)] ∧
    (build_transaction_graph
        [⟨"t1", "A", "B", 10, 0⟩, ⟨"t2", "A", "B", 20, 5⟩]).edges.length = 1 := by
  constructor
  · rfl
  · rfl

/-- A persisted suspicion-history row (`SuspiciousHistory` in `database.py`),
keyed externally by account id. -/
structure MemRec where
  last_score : ℚ
  times_flagged : ℕ
  deriving DecidableEq, Repr

/-- The suspicion-history table: `db.query(SuspiciousHistory).filter(account_id
== a).first()` is `db a`. -/
abbrev Memory := String → Option MemRec

/-- A suspicious-account record after the scoring engine filled in score,
risk level and explanation. -/
structure ScoredAccount where
  account_id : String
  detected_patterns : List String
  ring_id : String
  suspicion_score : ℚ
  risk_level : String
  explanation : String
  deriving DecidableEq, Repr

/-- The `transaction_counts` dict of `calculate_suspicion_scores`: every row
increments its sender's and its receiver's count (a self-transfer counts
twice for its account). -/
def transactionCounts (df : List Transaction) : String → ℕ :=
  df.foldl
    (fun m row => fun a =>
      m a + (if a = row.sender_id then 1 else 0) +
        (if a = row.receiver_id then 1 else 0))
    (fun _ => 0)

/-- Round to the nearest integer, ties to even (Python `round`). -/
def roundHalfEven (x : ℚ) : ℤ :=
  if x - ⌊x⌋ < 1 / 2 then ⌊x⌋
  else if 1 / 2 < x - ⌊x⌋ then ⌊x⌋ + 1
  else if ⌊x⌋ % 2 = 0 then ⌊x⌋ else ⌊x⌋ + 1

/-- Python `round(x, 2)`. -/
def round2 (x : ℚ) : ℚ := (roundHalfEven (x * 100) : ℚ) / 100

/-- The risk-tier classification of `calculate_suspicion_scores` (applied to
the unrounded `raw_score`). -/
def riskLevel (raw_score : ℚ) : String :=
  if raw_score ≥ 70 then "HIGH"
  else if raw_score ≥ 50 then "MEDIUM"
  else "LOW"

/-- The per-account accumulation loop body of `calculate_suspicion_scores`:
each `if` block contributes its score delta and its explanation string; the
pair below collects the deltas (summed in program order) and the triggered
explanation strings (appended in program order). -/
def scoreOne (patterns : List String) (txc : ℕ)
    (anomaly_value deg bet pr : ℚ) (history_record : Option MemRec) :
    ℚ × List String :=
  let s1 : ℚ × List String :=
    if "cycle" ∈ patterns then
      (50, ["Participates in circular routing pattern"])
    else (0, [])
  let s2 : ℚ × List String :=
    if "smurfing" ∈ patterns then
      (if txc > 2 then (45, ["Acts as smurfing aggregator"])
       else (35, ["Participates as smurfing feeder"]))
    else (0, [])
  let s3 : ℚ × List String :=
    if "shell_chain" ∈ patterns then
      (25, ["Involved in shell layering chain"])
    else (0, [])
  let s4 : ℚ × List String :=
    if anomaly_value < 0 then
      (|anomaly_value| * 50, ["Statistically abnormal transaction behavior"])
    else (0, [])
  let s5 : ℚ × List String :=
    if deg > 0.1 then (5, ["High connectivity in transaction graph"])
    else (0, [])
  let s6 : ℚ × List String :=
    if bet > 0.05 then (10, ["Acts as bridge between transaction paths"])
    else (0, [])
  let s7 : ℚ × List String :=
    if pr > 0.05 then (5, ["High influence score (PageRank)"])
    else (0, [])
  let s8 : ℚ × List String :=
    if txc > 5 then (10, ["High transaction activity"])
    else (0, [])
  let s9 : ℚ × List String :=
    match history_record with
    | some r =>
        ((r.times_flagged : ℚ) * 5,
          ["Previously flagged " ++ toString r.times_flagged ++ " time(s)"])
    | none => (0, [])
  (s1.1 + s2.1 + s3.1 + s4.1 + s5.1 + s6.1 + s7.1 + s8.1 + s9.1,
    s1.2 ++ s2.2 ++ s3.2 ++ s4.2 ++ s5.2 ++ s6.2 ++ s7.2 ++ s8.2 ++ s9.2)

/-- `calculate_suspicion_scores` of `scoring_engine.py`. The centrality and
anomaly maps are read with `.get(account_id, 0)`, so they are functions with
default `0` built in; `db` is the suspicion-history table. -/
def calculate_suspicion_scores (suspicious_accounts : List AccountRec)
    (df : List Transaction)
    (degree_centrality betweenness_centrality pagerank_scores
      anomaly_scores : String → ℚ)
    (db : Memory) : List ScoredAccount :=
  suspicious_accounts.map fun account =>
    let txc := transactionCounts df account.account_id
    let r := scoreOne account.detected_patterns txc
      (anomaly_scores account.account_id)
      (degree_centrality account.account_id)
      (betweenness_centrality account.account_id)
      (pagerank_scores account.account_id)
      (db account.account_id)
    { account_id := account.account_id
      detected_patterns := account.detected_patterns
      ring_id := account.ring_id
      suspicion_score := round2 r.1
      risk_level := riskLevel r.1
      explanation := String.intercalate "; " r.2 }

/-- Raw score as the spec's §4.8 signal table words it: the sum of the
deltas of the triggered rows, in table order. -/
def specRawScore (patterns : List String) (txc : ℕ)
    (anomaly deg bet pr : ℚ) (hist : Option MemRec) : ℚ :=
  (if "cycle" ∈ patterns then 50 else 0) +
  (if "smurfing" ∈ patterns then (if txc > 2 then 45 else 35) else 0) +
  (if "shell_chain" ∈ patterns then 25 else 0) +
  (if anomaly < 0 then |anomaly| * 50 else 0) +
  (if deg > 0.1 then 5 else 0) +
  (if bet > 0.05 then 10 else 0) +
  (if pr > 0.05 then 5 else 0) +
  (if txc > 5 then 10 else 0) +
  (match hist with
   | some r => (r.times_flagged : ℚ) * 5
   | none => 0)

/-- Explanation strings of the triggered table rows, in table order. -/
def specExplanationList (patterns : List String) (txc : ℕ)
    (anomaly deg bet pr : ℚ) (hist : Option MemRec) : List String :=
  (if "cycle" ∈ patterns then ["Participates in circular routing pattern"]
   else []) ++
  (if "smurfing" ∈ patterns then
    (if txc > 2 then ["Acts as smurfing aggregator"]
     else ["Participates as smurfing feeder"])
   else []) ++
  (if "shell_chain" ∈ patterns then ["Involved in shell layering chain"]
   else []) ++
  (if anomaly < 0 then ["Statistically abnormal transaction behavior"]
   else []) ++
  (if deg > 0.1 then ["High connectivity in transaction graph"] else []) ++
  (if bet > 0.05 then ["Acts as bridge between transaction paths"]
   else []) ++
  (if pr > 0.05 then ["High influence score (PageRank)"] else []) ++
  (if txc > 5 then ["High transaction activity"] else []) ++
  (match hist with
   | some r => ["Previously flagged " ++ toString r.times_flagged ++ " time(s)"]
   | none => [])

theorem scoreOne_fst (patterns : List String) (txc : ℕ)
    (anomaly deg bet pr : ℚ) (hist : Option MemRec) :
    (scoreOne patterns txc anomaly deg bet pr hist).1 =
      specRawScore patterns txc anomaly deg bet pr hist := by
  unfold scoreOne specRawScore
  cases hist <;>
    simp only [apply_ite (Prod.fst (α := ℚ) (β := List String))]

theorem scoreOne_snd (patterns : List String) (txc : ℕ)
    (anomaly deg bet pr : ℚ) (hist : Option MemRec) :
    (scoreOne patterns txc anomaly deg bet pr hist).2 =
      specExplanationList patterns txc anomaly deg bet pr hist := by
  unfold scoreOne specExplanationList
  cases hist <;>
    simp only [apply_ite (Prod.snd (α := ℚ) (β := List String))]

/-- **C1** — confirmed. For every consolidated suspicious account, the
engine's output record carries the score accumulated from the fixed signal
table (cycle +50; smurfing +45 when the account's transaction count > 2,
else +35; shell_chain +25; negative anomaly adds `|anomaly|·50`; degree
centrality > 0.1 adds +5; betweenness > 0.05 adds +10; PageRank > 0.05 adds
+5; transaction count > 5 adds +10; an existing memory record adds
`times_flagged·5`), classified HIGH at raw ≥ 70, MEDIUM at raw ≥ 50, else
LOW, with the score rounded to 2 decimal places and the triggered
explanation strings semicolon-joined in table order. -/
theorem C1_scoring_table (accounts : List AccountRec) (df : List Transaction)
    (deg bet pr anom : String → ℚ) (db : Memory) :
    calculate_suspicion_scores accounts df deg bet pr anom db =
      accounts.map (fun account =>
        let txc := transactionCounts df account.account_id
        let raw := specRawScore account.detected_patterns txc
          (anom account.account_id) (deg account.account_id)
          (bet account.account_id) (pr account.account_id)
          (db account.account_id)
        { account_id := account.account_id
          detected_patterns := account.detected_patterns
          ring_id := account.ring_id
          suspicion_score := round2 raw
          risk_level :=
            if raw ≥ 70 then "HIGH"
            else if raw ≥ 50 then "MEDIUM"
            else "LOW"
          explanation := String.intercalate "; "
            (specExplanationList account.detected_patterns txc
              (anom account.account_id) (deg account.account_id)
              (bet account.account_id) (pr account.account_id)
              (db account.account_id)) }) := by
  unfold calculate_suspicion_scores riskLevel
  apply List.map_congr_left
  intro account _
  simp only [scoreOne_fst, scoreOne_snd]

/-- Insert into an ascending list (helper for the sort below). -/
def insertSorted {α : Type} [LinearOrder α] (x : α) : List α → List α
  | [] => [x]
  | y :: ys => if x ≤ y then x :: y :: ys else y :: insertSorted x ys

/-- Ascending insertion sort (the ascending sort `np.percentile` performs
and the key order `pandas.groupby` iterates in; on a linear order any
correct ascending sort of the same values yields the same list). -/
def sortAsc {α : Type} [LinearOrder α] (l : List α) : List α :=
  l.foldr insertSorted []

theorem insertSorted_perm {α : Type} [LinearOrder α] (a : α) (l : List α) :
    (insertSorted a l).Perm (a :: l) := by
  induction l with
  | nil => exact List.Perm.refl _
  | cons y ys ih =>
    unfold insertSorted
    split
    · exact List.Perm.refl _
    · exact (List.Perm.cons y ih).trans (List.Perm.swap a y ys)

theorem sortAsc_perm {α : Type} [LinearOrder α] (l : List α) :
    (sortAsc l).Perm l := by
  induction l with
  | nil => exact List.Perm.refl _
  | cons y ys ih =>
    unfold sortAsc at *
    simp only [List.foldr_cons]
    exact (insertSorted_perm y _).trans (List.Perm.cons y ih)

theorem mem_insertSorted {α : Type} [LinearOrder α] {x a : α} {l : List α}
    (h : x ∈ insertSorted a l) : x = a ∨ x ∈ l := by
  induction l with
  | nil => simpa [insertSorted] using h
  | cons y ys ih =>
    unfold insertSorted at h
    split at h
    · rcases List.mem_cons.mp h with h | h
      · exact Or.inl h
      · exact Or.inr h
    · rcases List.mem_cons.mp h with h | h
      · exact Or.inr (by simp [h])
      · rcases ih h with h' | h'
        · exact Or.inl h'
        · exact Or.inr (by simp [h'])

theorem mem_sortAsc {α : Type} [LinearOrder α] {x : α} {l : List α}
    (h : x ∈ sortAsc l) : x ∈ l := by
  induction l with
  | nil => simp [sortAsc] at h
  | cons y ys ih =>
    unfold sortAsc at h
    simp only [List.foldr_cons] at h
    rcases mem_insertSorted h with h' | h'
    · simp [h']
    · exact List.mem_cons_of_mem y (ih h')

theorem length_insertSorted {α : Type} [LinearOrder α] (a : α) (l : List α) :
    (insertSorted a l).length = l.length + 1 := by
  induction l with
  | nil => rfl
  | cons y ys ih =>
    unfold insertSorted
    split
    · simp
    · simp [ih]

theorem length_sortAsc {α : Type} [LinearOrder α] (l : List α) :
    (sortAsc l).length = l.length := by
  induction l with
  | nil => rfl
  | cons y ys ih =>
    unfold sortAsc at *
    simp only [List.foldr_cons, length_insertSorted, ih, List.length_cons]

/-- `np.percentile(scores, 70)` with numpy's default linear interpolation:
sort ascending, take position `h = 0.7·(n−1)` and interpolate between the
two neighbouring order statistics. -/
def percentile70 (scores : List ℚ) : ℚ :=
  let s := sortAsc scores
  let i : ℕ := (⌊7 * ((s.length : ℚ) - 1) / 10⌋).toNat
  let lo := s.getD i 0
  let hi := s.getD (i + 1) lo
  lo + (7 * ((s.length : ℚ) - 1) / 10 - (i : ℚ)) * (hi - lo)

/-- The dynamic-threshold computation of `upload_file` in `main.py`. -/
def dynamicThreshold (scored : List ScoredAccount) : ℚ :=
  if scored ≠ [] then
    max 40 (percentile70 (scored.map ScoredAccount.suspicion_score))
  else 40

/-- The threshold filter of `upload_file`: keep accounts whose score is at
least the dynamic threshold. -/
def applyThreshold (scored : List ScoredAccount) : List ScoredAccount :=
  scored.filter (fun acc => decide (acc.suspicion_score ≥ dynamicThreshold scored))

/-- The ring-pruning step of `upload_file`: keep a ring iff some member is
among the surviving account ids. -/
def pruneRings (rings : List FraudRing) (valid_ids : List String) :
    List FraudRing :=
  rings.filter (fun ring => ring.member_accounts.any (fun m => decide (m ∈ valid_ids)))

/-- **C2** — confirmed. The threshold is `max(40, 70th percentile)` for a
non-empty scored list and `40` otherwise; every account scoring strictly
below the threshold is dropped; every ring with no surviving member is
dropped. -/
theorem C2_threshold_filter_prune (scored : List ScoredAccount)
    (rings : List FraudRing) :
    (scored ≠ [] →
      dynamicThreshold scored =
        max 40 (percentile70 (scored.map ScoredAccount.suspicion_score))) ∧
    (scored = [] → dynamicThreshold scored = 40) ∧
    (∀ acc ∈ scored, acc.suspicion_score < dynamicThreshold scored →
      acc ∉ applyThreshold scored) ∧
    (∀ ring ∈ rings,
      (∀ m ∈ ring.member_accounts,
        m ∉ (applyThreshold scored).map ScoredAccount.account_id) →
      ring ∉ pruneRings rings
        ((applyThreshold scored).map ScoredAccount.account_id)) := by
  refine ⟨fun h => by simp [dynamicThreshold, h], fun h => by simp [dynamicThreshold, h], ?_, ?_⟩
  · intro acc _ hlt hmem
    have := (List.mem_filter.mp hmem).2
    simp only [decide_eq_true_eq, ge_iff_le] at this
    exact absurd this (not_le.mpr hlt)
  · intro ring _ hnone hmem
    have := (List.mem_filter.mp hmem).2
    obtain ⟨m, hm, hmv⟩ := List.any_eq_true.mp this
    exact hnone m hm (of_decide_eq_true hmv)

/-- **C2** — witness: with scores `[50, 30]` the threshold is
`max 40 (30 + 0.7·20) = 44`; the 30-scorer is dropped and a ring whose only
member is the dropped account is pruned. -/
theorem C2_threshold_witness :
    (⟨"B", [], "R", 30, "LOW", ""⟩ : ScoredAccount) ∉
      applyThreshold
        [⟨"A", [], "R", 50, "MEDIUM", ""⟩, ⟨"B", [], "R", 30, "LOW", ""⟩] ∧
    (⟨"RING_001", ["B"], "cycle"⟩ : FraudRing) ∉
      pruneRings [⟨"RING_001", ["B"], "cycle"⟩]
        ((applyThreshold
          [⟨"A", [], "R", 50, "MEDIUM", ""⟩,
            ⟨"B", [], "R", 30, "LOW", ""⟩]).map ScoredAccount.account_id) := by
  have h := C2_threshold_filter_prune
    [⟨"A", [], "R", 50, "MEDIUM", ""⟩, ⟨"B", [], "R", 30, "LOW", ""⟩]
    [⟨"RING_001", ["B"], "cycle"⟩]
  have hp : percentile70 [(50:ℚ), 30] = 44 := by
    have hs : sortAsc [(50:ℚ), 30] = [30, 50] := by
      norm_num [sortAsc, insertSorted]
    simp only [percentile70, hs]
    norm_num [List.getD]
  have hthr : dynamicThreshold
      [⟨"A", [], "R", 50, "MEDIUM", ""⟩, ⟨"B", [], "R", 30, "LOW", ""⟩] = 44 := by
    have hne : ([⟨"A", [], "R", 50, "MEDIUM", ""⟩,
        ⟨"B", [], "R", 30, "LOW", ""⟩] : List ScoredAccount) ≠ [] := by simp
    rw [dynamicThreshold, if_pos hne]
    simp only [List.map_cons, List.map_nil]
    rw [hp]
    norm_num
  have hsurv : applyThreshold
      [⟨"A", [], "R", 50, "MEDIUM", ""⟩, ⟨"B", [], "R", 30, "LOW", ""⟩] =
      [⟨"A", [], "R", 50, "MEDIUM", ""⟩] := by
    unfold applyThreshold
    rw [hthr]
    norm_num [List.filter]
  refine ⟨h.2.2.1 ⟨"B", [], "R", 30, "LOW", ""⟩ (by simp) (by rw [hthr]; norm_num), ?_⟩
  refine h.2.2.2 ⟨"RING_001", ["B"], "cycle"⟩ (by simp) ?_
  intro m hm
  simp only [List.mem_singleton] at hm
  subst hm
  rw [hsurv]
  simp

/-- The interpolated 70th percentile never exceeds an upper bound of the
scores. -/
theorem percentile70_le_of_le (scores : List ℚ) (M : ℚ)
    (hne : scores ≠ []) (hub : ∀ x ∈ scores, x ≤ M) :
    percentile70 scores ≤ M := by
  have hubs : ∀ x ∈ sortAsc scores, x ≤ M := fun x hx => hub x (mem_sortAsc hx)
  have hlen : (sortAsc scores).length = scores.length := length_sortAsc scores
  have hpos : 1 ≤ scores.length := by
    cases scores with
    | nil => exact absurd rfl hne
    | cons a l => simp
  set n : ℕ := (sortAsc scores).length with hn
  have hn1 : 1 ≤ n := by rw [hn, length_sortAsc]; exact hpos
  set pos : ℚ := 7 * ((n : ℚ) - 1) / 10 with hposdef
  have hpos0 : 0 ≤ pos := by
    rw [hposdef]
    have : (1 : ℚ) ≤ (n : ℚ) := by exact_mod_cast hn1
    have h1 : (0 : ℚ) ≤ (n : ℚ) - 1 := by linarith
    positivity
  have hposle : pos ≤ (n : ℚ) - 1 := by
    rw [hposdef]
    have : (1 : ℚ) ≤ (n : ℚ) := by exact_mod_cast hn1
    nlinarith
  set i : ℕ := (⌊pos⌋).toNat with hi
  have hfloor0 : 0 ≤ ⌊pos⌋ := Int.floor_nonneg.mpr hpos0
  have hicast : (i : ℚ) = (⌊pos⌋ : ℚ) := by
    rw [hi]
    exact_mod_cast congrArg (fun z : ℤ => (z : ℚ)) (Int.toNat_of_nonneg hfloor0)
  have hile : (i : ℚ) ≤ pos := by rw [hicast]; exact Int.floor_le pos
  have hilt : pos < (i : ℚ) + 1 := by rw [hicast]; exact_mod_cast Int.lt_floor_add_one pos
  have hin : i < n := by
    have h1 : ⌊pos⌋ ≤ (n : ℤ) - 1 := by
      have := Int.floor_le_floor (α := ℚ) hposle
      rwa [show ((n : ℚ) - 1) = (((n : ℤ) - 1 : ℤ) : ℚ) by push_cast; ring,
        Int.floor_intCast] at this
    have h2 : i ≤ ((n : ℤ) - 1).toNat := by
      rw [hi]
      exact Int.toNat_le_toNat h1
    have h3 : ((n : ℤ) - 1).toNat = n - 1 := by
      omega
    omega
  have hlo : (sortAsc scores).getD i 0 ≤ M := by
    rw [List.getD_eq_getElem?_getD]
    rw [List.getElem?_eq_getElem (by rw [← hn]; exact hin)]
    exact hubs _ (List.getElem_mem _)
  have hhi : (sortAsc scores).getD (i + 1) ((sortAsc scores).getD i 0) ≤ M := by
    by_cases h : i + 1 < n
    · rw [List.getD_eq_getElem?_getD,
        List.getElem?_eq_getElem (by rw [← hn]; exact h)]
      exact hubs _ (List.getElem_mem _)
    · rw [List.getD_eq_getElem?_getD, List.getElem?_eq_none (by omega)]
      exact hlo
  show (sortAsc scores).getD i 0 +
      (pos - (i : ℚ)) *
        ((sortAsc scores).getD (i + 1) ((sortAsc scores).getD i 0) -
          (sortAsc scores).getD i 0) ≤ M
  set lo := (sortAsc scores).getD i 0
  set hi2 := (sortAsc scores).getD (i + 1) lo
  have hf0 : 0 ≤ pos - (i : ℚ) := by linarith
  have hf1 : pos - (i : ℚ) ≤ 1 := by linarith
  nlinarith [hlo, hhi, hf0, hf1]

/-- **C10** — confirmed. For a non-empty scored list whose maximum score is
at least 40, the dynamic threshold never exceeds that maximum, so every
account attaining the maximum survives and the surviving list is
non-empty. -/
theorem C10_max_scorer_survives (scored : List ScoredAccount)
    (acc : ScoredAccount) (hmem : acc ∈ scored)
    (hmax : ∀ b ∈ scored, b.suspicion_score ≤ acc.suspicion_score)
    (h40 : 40 ≤ acc.suspicion_score) :
    dynamicThreshold scored ≤ acc.suspicion_score ∧
    acc ∈ applyThreshold scored ∧
    applyThreshold scored ≠ [] := by
  have hne : scored ≠ [] := List.ne_nil_of_mem hmem
  have hub : ∀ x ∈ scored.map ScoredAccount.suspicion_score,
      x ≤ acc.suspicion_score := by
    intro x hx
    obtain ⟨b, hb, rfl⟩ := List.mem_map.mp hx
    exact hmax b hb
  have hpne : scored.map ScoredAccount.suspicion_score ≠ [] := by
    simpa using hne
  have hperc := percentile70_le_of_le _ _ hpne hub
  have hthr : dynamicThreshold scored ≤ acc.suspicion_score := by
    rw [dynamicThreshold, if_pos hne]
    exact max_le h40 hperc
  have hmem2 : acc ∈ applyThreshold scored :=
    List.mem_filter.mpr ⟨hmem, decide_eq_true hthr⟩
  exact ⟨hthr, hmem2, List.ne_nil_of_mem hmem2⟩

/-- **C10** — witness at scores `[90, 50]`: the 90-scorer survives. -/
theorem C10_witness :
    dynamicThreshold
        [⟨"A", [], "R", 90, "HIGH", ""⟩, ⟨"B", [], "R", 50, "MEDIUM", ""⟩] ≤
      (⟨"A", [], "R", 90, "HIGH", ""⟩ : ScoredAccount).suspicion_score ∧
    (⟨"A", [], "R", 90, "HIGH", ""⟩ : ScoredAccount) ∈
      applyThreshold
        [⟨"A", [], "R", 90, "HIGH", ""⟩, ⟨"B", [], "R", 50, "MEDIUM", ""⟩] ∧
    applyThreshold
        [⟨"A", [], "R", 90, "HIGH", ""⟩, ⟨"B", [], "R", 50, "MEDIUM", ""⟩] ≠
      [] := by
  apply C10_max_scorer_survives
  · simp
  · intro b hb
    rcases List.mem_cons.mp hb with rfl | hb
    · norm_num
    · rcases List.mem_cons.mp hb with rfl | hb
      · norm_num
      · cases hb
  · norm_num

/-- The history-saving loop of `upload_file` in `main.py`: for each
surviving account in order, read its history row, then either increment
`times_flagged` and overwrite `last_score`, or create a row with
`times_flagged = 1`. -/
def saveHistory (db : Memory) (survivors : List ScoredAccount) : Memory :=
  survivors.foldl
    (fun m acc => fun a =>
      if a = acc.account_id then
        match m acc.account_id with
        | some r => some ⟨acc.suspicion_score, r.times_flagged + 1⟩
        | none => some ⟨acc.suspicion_score, 1⟩
      else m a)
    db

/-- The scoring / thresholding / ring-pruning / memory-write tail of
`upload_file` in `main.py`, from the consolidated account list onward.
Returns the final suspicious accounts, the pruned rings, and the updated
suspicion-history table. -/
def scoringPipeline (accounts : List AccountRec) (df : List Transaction)
    (deg bet pr anom : String → ℚ) (rings : List FraudRing) (db : Memory) :
    List ScoredAccount × List FraudRing × Memory :=
  let scored := calculate_suspicion_scores accounts df deg bet pr anom db
  let survivors := applyThreshold scored
  let valid_ids := survivors.map ScoredAccount.account_id
  (survivors, pruneRings rings valid_ids, saveHistory db survivors)

theorem saveHistory_not_mem (db : Memory) (survivors : List ScoredAccount)
    (a : String) (ha : a ∉ survivors.map ScoredAccount.account_id) :
    saveHistory db survivors a = db a := by
  induction survivors generalizing db with
  | nil => rfl
  | cons x t ih =>
    have hax : a ≠ x.account_id := by
      intro h; exact ha (by simp [h])
    have hat : a ∉ t.map ScoredAccount.account_id := by
      intro h; exact ha (by simp [h])
    unfold saveHistory
    simp only [List.foldl_cons]
    have := ih (fun b =>
      if b = x.account_id then
        match db x.account_id with
        | some r => some ⟨x.suspicion_score, r.times_flagged + 1⟩
        | none => some ⟨x.suspicion_score, 1⟩
      else db b) hat
    unfold saveHistory at this
    rw [this]
    simp [hax]

theorem saveHistory_mem (db : Memory) (survivors : List ScoredAccount)
    (hnd : (survivors.map ScoredAccount.account_id).Nodup) :
    ∀ acc ∈ survivors,
      saveHistory db survivors acc.account_id =
        some ⟨acc.suspicion_score,
          (match db acc.account_id with
           | some r => r.times_flagged + 1
           | none => 1)⟩ := by
  induction survivors generalizing db with
  | nil => intro acc h; cases h
  | cons x t ih =>
    intro acc hacc
    rw [List.map_cons, List.nodup_cons] at hnd
    obtain ⟨hx, hndt⟩ := hnd
    unfold saveHistory
    simp only [List.foldl_cons]
    rcases List.mem_cons.mp hacc with rfl | hat
    · have := saveHistory_not_mem (fun b =>
        if b = acc.account_id then
          match db acc.account_id with
          | some r => some ⟨acc.suspicion_score, r.times_flagged + 1⟩
          | none => some ⟨acc.suspicion_score, 1⟩
        else db b) t acc.account_id hx
      unfold saveHistory at this
      rw [this]
      simp only [if_pos rfl]
      cases db acc.account_id <;> rfl
    · have hxa : acc.account_id ≠ x.account_id := by
        intro h
        exact hx (h ▸ List.mem_map.mpr ⟨acc, hat, rfl⟩)
      have := ih (fun b =>
        if b = x.account_id then
          match db x.account_id with
          | some r => some ⟨x.suspicion_score, r.times_flagged + 1⟩
          | none => some ⟨x.suspicion_score, 1⟩
        else db b) hndt acc hat
      unfold saveHistory at this
      rw [this]
      simp [hxa]

theorem scores_map_account_id (accounts : List AccountRec)
    (df : List Transaction) (deg bet pr anom : String → ℚ) (db : Memory) :
    (calculate_suspicion_scores accounts df deg bet pr anom db).map
        ScoredAccount.account_id =
      accounts.map AccountRec.account_id := by
  unfold calculate_suspicion_scores
  rw [List.map_map]
  rfl

/-- **C7** — confirmed. For every account surviving the dynamic threshold,
the history table after the run holds `times_flagged` incremented by
exactly one (created at 1 when absent) and `last_score` overwritten with
that run's suspicion score; accounts that do not survive leave their rows
untouched; and the surviving records' scores are exactly the ones computed
against the pre-write table (the memory boost used the pre-increment
`times_flagged`). -/
theorem C7_memory_write_once (accounts : List AccountRec)
    (df : List Transaction) (deg bet pr anom : String → ℚ)
    (rings : List FraudRing) (db : Memory)
    (hnd : (accounts.map AccountRec.account_id).Nodup) :
    (∀ acc ∈ (scoringPipeline accounts df deg bet pr anom rings db).1,
      (scoringPipeline accounts df deg bet pr anom rings db).2.2
          acc.account_id =
        some ⟨acc.suspicion_score,
          (match db acc.account_id with
           | some r => r.times_flagged + 1
           | none => 1)⟩) ∧
    (∀ a : String,
      a ∉ ((scoringPipeline accounts df deg bet pr anom rings db).1).map
          ScoredAccount.account_id →
      (scoringPipeline accounts df deg bet pr anom rings db).2.2 a = db a) ∧
    (∀ acc ∈ (scoringPipeline accounts df deg bet pr anom rings db).1,
      acc ∈ calculate_suspicion_scores accounts df deg bet pr anom db) := by
  have hsnd : ((calculate_suspicion_scores accounts df deg bet pr anom
      db).map ScoredAccount.account_id).Nodup := by
    rw [scores_map_account_id]; exact hnd
  have hsurvnd : ((applyThreshold (calculate_suspicion_scores accounts df deg
      bet pr anom db)).map ScoredAccount.account_id).Nodup := by
    apply List.Nodup.sublist _ hsnd
    exact List.Sublist.map _ (List.filter_sublist _)
  refine ⟨?_, ?_, ?_⟩
  · intro acc hacc
    exact saveHistory_mem db _ hsurvnd acc hacc
  · intro a ha
    exact saveHistory_not_mem db _ a ha
  · intro acc hacc
    exact List.mem_of_mem_filter hacc

/-- **C7** — witness: one cycle-flagged account with empty memory ends the
run with `times_flagged = 1` and `last_score = 50`. -/
theorem C7_witness :
    (scoringPipeline [⟨"A", ["cycle"], "RING_001"⟩] [] (fun _ => 0)
      (fun _ => 0) (fun _ => 0) (fun _ => 0) [] (fun _ => none)).2.2 "A" =
      some ⟨50, 1⟩ := by
  have h1 : scoreOne ["cycle"] 0 0 0 0 0 none =
      (50, ["Participates in circular routing pattern"]) := by
    rw [scoreOne]
    norm_num
    simp
  have hround : round2 50 = 50 := by
    rw [round2, roundHalfEven]
    norm_num
  have hscored : calculate_suspicion_scores [⟨"A", ["cycle"], "RING_001"⟩] []
      (fun _ => 0) (fun _ => 0) (fun _ => 0) (fun _ => 0) (fun _ => none) =
      [⟨"A", ["cycle"], "RING_001", 50, "MEDIUM",
        "Participates in circular routing pattern"⟩] := by
    simp only [calculate_suspicion_scores, List.map_cons, List.map_nil]
    norm_num [transactionCounts, h1, hround, riskLevel]
    rfl
  have hthr50 : percentile70 [(50 : ℚ)] = 50 := by
    have hs : sortAsc [(50 : ℚ)] = [50] := by norm_num [sortAsc, insertSorted]
    simp only [percentile70, hs]
    norm_num [List.getD]
  have hthr : dynamicThreshold
      [⟨"A", ["cycle"], "RING_001", 50, "MEDIUM",
        "Participates in circular routing pattern"⟩] = 50 := by
    rw [dynamicThreshold, if_pos (by simp)]
    simp only [List.map_cons, List.map_nil]
    rw [hthr50]
    norm_num
  have hsurv : applyThreshold
      [⟨"A", ["cycle"], "RING_001", 50, "MEDIUM",
        "Participates in circular routing pattern"⟩] =
      [⟨"A", ["cycle"], "RING_001", 50, "MEDIUM",
        "Participates in circular routing pattern"⟩] := by
    unfold applyThreshold
    rw [hthr]
    norm_num [List.filter]
  have hmem : (⟨"A", ["cycle"], "RING_001", 50, "MEDIUM",
      "Participates in circular routing pattern"⟩ : ScoredAccount) ∈
      (scoringPipeline [⟨"A", ["cycle"], "RING_001"⟩] [] (fun _ => 0)
        (fun _ => 0) (fun _ => 0) (fun _ => 0) [] (fun _ => none)).1 := by
    simp only [scoringPipeline]
    rw [hscored, hsurv]
    simp
  have h := (C7_memory_write_once [⟨"A", ["cycle"], "RING_001"⟩] []
    (fun _ => 0) (fun _ => 0) (fun _ => 0) (fun _ => 0) [] (fun _ => none)
    (by simp)).1 _ hmem
  simpa using h

/-- Distinct values in order of first occurrence (`pandas.Series.unique`). -/
def uniqueKeepFirst {α : Type} [DecidableEq α] (l : List α) : List α :=
  l.foldl (fun acc x => if x ∈ acc then acc else acc ++ [x]) []

theorem mem_uniqueKeepFirst_aux {α : Type} [DecidableEq α] (l : List α)
    (acc : List α) (x : α) :
    x ∈ l.foldl (fun acc x => if x ∈ acc then acc else acc ++ [x]) acc ↔
      x ∈ acc ∨ x ∈ l := by
  induction l generalizing acc with
  | nil => simp
  | cons y ys ih =>
    simp only [List.foldl_cons]
    rw [ih]
    by_cases hy : y ∈ acc
    · simp only [if_pos hy]
      constructor
      · rintro (h | h)
        · exact Or.inl h
        · exact Or.inr (by simp [h])
      · rintro (h | h)
        · exact Or.inl h
        · rcases List.mem_cons.mp h with rfl | h
          · exact Or.inl hy
          · exact Or.inr h
    · simp only [if_neg hy, List.mem_append, List.mem_singleton]
      constructor
      · rintro ((h | h) | h)
        · exact Or.inl h
        · exact Or.inr (by simp [h])
        · exact Or.inr (by simp [h])
      · rintro (h | h)
        · exact Or.inl (Or.inl h)
        · rcases List.mem_cons.mp h with rfl | h
          · exact Or.inl (Or.inr rfl)
          · exact Or.inr h

theorem mem_uniqueKeepFirst {α : Type} [DecidableEq α] (l : List α) (x : α) :
    x ∈ uniqueKeepFirst l ↔ x ∈ l := by
  unfold uniqueKeepFirst
  rw [mem_uniqueKeepFirst_aux]
  simp

theorem nodup_uniqueKeepFirst {α : Type} [DecidableEq α] (l : List α) :
    (uniqueKeepFirst l).Nodup := by
  unfold uniqueKeepFirst
  suffices h : ∀ acc : List α, acc.Nodup →
      (l.foldl (fun acc x => if x ∈ acc then acc else acc ++ [x]) acc).Nodup
    from h [] List.nodup_nil
  induction l with
  | nil => intro acc h; exact h
  | cons y ys ih =>
    intro acc hacc
    simp only [List.foldl_cons]
    apply ih
    by_cases hy : y ∈ acc
    · simpa [hy] using hacc
    · rw [if_neg hy]
      simp [List.nodup_append, hacc, hy]

/-- Maximum of a timestamp series (`Series.max`, used on non-empty groups). -/
def tsMax (l : List ℤ) : ℤ := l.foldl max (l.headD 0)

/-- Minimum of a timestamp series (`Series.min`). -/
def tsMin (l : List ℤ) : ℤ := l.foldl min (l.headD 0)

/-- The rows of `df` with receiver `r`: one `groupby("receiver_id")` group,
in original row order. -/
def receiverGroup (df : List Transaction) (r : String) : List Transaction :=
  df.filter (fun t => decide (t.receiver_id = r))

/-- The keys `groupby("receiver_id")` iterates over: the distinct receiver
ids in ascending order. -/
def smurfReceivers (df : List Transaction) : List String :=
  sortAsc (uniqueKeepFirst (df.map Transaction.receiver_id))

/-- Python `f"{k:03d}"` zero-padding. -/
def pad3 (k : ℕ) : String :=
  if k < 10 then "00" ++ toString k
  else if k < 100 then "0" ++ toString k
  else toString k

/-- The per-receiver test of `detect_smurfing`: at least `min_senders = 5`
distinct senders and `max(timestamp) − min(timestamp) ≤ 72` hours
(259200 s) over the group; on success the ring members are
`list(unique_senders) + [receiver]`. -/
def smurfCandidate (df : List Transaction) (r : String) :
    Option (List String) :=
  let group := receiverGroup df r
  let unique_senders := uniqueKeepFirst (group.map Transaction.sender_id)
  if 5 ≤ unique_senders.length then
    if tsMax (group.map Transaction.timestamp) -
        tsMin (group.map Transaction.timestamp) ≤ 259200 then
      some (unique_senders ++ [r])
    else none
  else none

/-- One `for receiver, group in grouped:` iteration of `detect_smurfing`:
state is (rings so far, accounts dict so far, ring counter). -/
def smurfStep (df : List Transaction)
    (st : List FraudRing × List (String × AccountRec) × ℕ) (r : String) :
    List FraudRing × List (String × AccountRec) × ℕ :=
  match smurfCandidate df r with
  | none => st
  | some members =>
    let ring_id := "SMURF_" ++ pad3 st.2.2
    (st.1 ++ [⟨ring_id, members, "smurfing"⟩],
     members.foldl
       (fun m a => updAssoc m a ⟨a, ["smurfing"], ring_id⟩) st.2.1,
     st.2.2 + 1)

/-- `detect_smurfing` of `smurf_detector.py`. -/
def detect_smurfing (df : List Transaction) :
    List FraudRing × List AccountRec :=
  let st := (smurfReceivers df).foldl (smurfStep df) ([], [], 1)
  (st.1, st.2.1.map Prod.snd)

theorem smurfCandidate_getLast {df : List Transaction} {r : String}
    {ms : List String} (h : smurfCandidate df r = some ms) :
    ms.getLast? = some r := by
  unfold smurfCandidate at h
  simp only [] at h
  split at h
  · split at h
    · have := Option.some.inj h
      rw [← this, List.getLast?_append]
      rfl
    · cases h
  · cases h

theorem smurfStep_none {df : List Transaction}
    {st : List FraudRing × List (String × AccountRec) × ℕ} {q : String}
    (hc : smurfCandidate df q = none) : smurfStep df st q = st := by
  unfold smurfStep
  rw [hc]

theorem smurfStep_some {df : List Transaction}
    {st : List FraudRing × List (String × AccountRec) × ℕ} {q : String}
    {ms : List String} (hc : smurfCandidate df q = some ms) :
    (smurfStep df st q).1 =
      st.1 ++ [⟨"SMURF_" ++ pad3 st.2.2, ms, "smurfing"⟩] := by
  unfold smurfStep
  rw [hc]

theorem smurf_fold_rings (df : List Transaction) (recs : List String)
    (r : String) :
    recs.Nodup →
    ∀ st : List FraudRing × List (String × AccountRec) × ℕ,
      (((recs.foldl (smurfStep df) st).1.filter
          (fun g => decide (g.member_accounts.getLast? = some r))).map
          FraudRing.member_accounts) =
        ((st.1.filter
          (fun g => decide (g.member_accounts.getLast? = some r))).map
          FraudRing.member_accounts) ++
          (if r ∈ recs then (smurfCandidate df r).toList else []) := by
  induction recs with
  | nil => intro _ st; simp
  | cons q recs' ih =>
    intro hnd st
    rw [List.nodup_cons] at hnd
    obtain ⟨hq, hnd'⟩ := hnd
    simp only [List.foldl_cons]
    rw [ih hnd' (smurfStep df st q)]
    cases hc : smurfCandidate df q with
    | none =>
      rw [smurfStep_none hc]
      by_cases hrq : r = q
      · subst hrq
        rw [if_pos (List.mem_cons_self r recs'), hc]
        simp [hq]
      · simp [List.mem_cons, hrq]
    | some ms =>
      have hfil : (smurfStep df st q).1.filter
          (fun g => decide (g.member_accounts.getLast? = some r)) =
          st.1.filter
            (fun g => decide (g.member_accounts.getLast? = some r)) ++
          (if r = q
            then [⟨"SMURF_" ++ pad3 st.2.2, ms, "smurfing"⟩] else []) := by
        rw [smurfStep_some hc, List.filter_append]
        congr 1
        have hlast : ms.getLast? = some q := smurfCandidate_getLast hc
        by_cases hrq : r = q
        · subst hrq
          simp [List.filter, hlast]
        · have : ¬ ms.getLast? = some r := by
            rw [hlast]
            intro hctr
            exact hrq (Option.some.inj hctr).symm
          simp [List.filter, this, hrq]
      rw [hfil, List.map_append]
      by_cases hrq : r = q
      · subst hrq
        rw [if_pos rfl, if_pos (List.mem_cons_self r recs'), if_neg hq, hc]
        simp
      · rw [if_neg hrq]
        simp only [List.map_nil, List.append_nil]
        have hiff : (r ∈ q :: recs') ↔ (r ∈ recs') := by
          simp [List.mem_cons, hrq]
        rw [if_congr hiff rfl rfl]

theorem smurf_fold_pattern (df : List Transaction) (recs : List String) :
    ∀ st : List FraudRing × List (String × AccountRec) × ℕ,
      (∀ g ∈ st.1, g.pattern_type = "smurfing") →
      ∀ g ∈ (recs.foldl (smurfStep df) st).1, g.pattern_type = "smurfing" := by
  induction recs with
  | nil => intro st h; exact h
  | cons q recs' ih =>
    intro st h
    simp only [List.foldl_cons]
    apply ih
    intro g hg
    cases hc : smurfCandidate df q with
    | none =>
      rw [smurfStep_none hc] at hg
      exact h g hg
    | some ms =>
      rw [smurfStep_some hc] at hg
      rcases List.mem_append.mp hg with h1 | h1
      · exact h g h1
      · rw [List.mem_singleton] at h1
        rw [h1]

theorem nodup_smurfReceivers (df : List Transaction) :
    (smurfReceivers df).Nodup := by
  unfold smurfReceivers
  exact (sortAsc_perm _).nodup_iff.mpr (nodup_uniqueKeepFirst _)

theorem mem_smurfReceivers {df : List Transaction} {r : String}
    (h : r ∈ df.map Transaction.receiver_id) : r ∈ smurfReceivers df := by
  unfold smurfReceivers
  rw [(sortAsc_perm _).mem_iff, mem_uniqueKeepFirst]
  exact h

theorem smurfCandidate_toList (df : List Transaction) (r : String) :
    (smurfCandidate df r).toList =
      if 5 ≤ (uniqueKeepFirst
            ((receiverGroup df r).map Transaction.sender_id)).length ∧
          tsMax ((receiverGroup df r).map Transaction.timestamp) -
            tsMin ((receiverGroup df r).map Transaction.timestamp) ≤ 259200
      then [uniqueKeepFirst
          ((receiverGroup df r).map Transaction.sender_id) ++ [r]]
      else [] := by
  unfold smurfCandidate
  by_cases h1 : 5 ≤ (uniqueKeepFirst
      ((receiverGroup df r).map Transaction.sender_id)).length
  · by_cases h2 : tsMax ((receiverGroup df r).map Transaction.timestamp) -
        tsMin ((receiverGroup df r).map Transaction.timestamp) ≤ 259200
    · simp [h1, h2]
    · simp [h1, h2]
  · simp [h1]

/-- **C6** — corrected. For every receiver in the batch, the smurfing
detector emits exactly one `smurfing` ring iff the receiver has at least 5
distinct senders and the group's timestamp span is at most 72 hours
(259200 s); the ring's members are the distinct senders in first-appearance
order followed by the receiver — so the receiver is listed twice when it is
among its own senders, rather than "each member listed once". -/
theorem C6_smurfing_characterization (df : List Transaction) (r : String)
    (hr : r ∈ df.map Transaction.receiver_id) :
    (((detect_smurfing df).1.filter
        (fun g => decide (g.member_accounts.getLast? = some r))).map
        FraudRing.member_accounts =
      (if 5 ≤ (uniqueKeepFirst
            ((receiverGroup df r).map Transaction.sender_id)).length ∧
          tsMax ((receiverGroup df r).map Transaction.timestamp) -
            tsMin ((receiverGroup df r).map Transaction.timestamp) ≤ 259200
       then [uniqueKeepFirst
          ((receiverGroup df r).map Transaction.sender_id) ++ [r]]
       else [])) ∧
    ∀ g ∈ (detect_smurfing df).1, g.pattern_type = "smurfing" := by
  constructor
  · show (((smurfReceivers df).foldl (smurfStep df) ([], [], 1)).1.filter
        (fun g => decide (g.member_accounts.getLast? = some r))).map
        FraudRing.member_accounts = _
    rw [smurf_fold_rings df (smurfReceivers df) r (nodup_smurfReceivers df)
      ([], [], 1)]
    simp only [List.filter_nil, List.map_nil, List.nil_append]
    rw [if_pos (mem_smurfReceivers hr), smurfCandidate_toList]
  · intro g hg
    exact smurf_fold_pattern df (smurfReceivers df) ([], [], 1)
      (by intro g hg; cases hg) g hg

/-- **C6** — counterexample to "each member listed once": when the receiver
sends to itself, it is among its own distinct senders and the member list
`list(unique_senders) + [receiver]` lists it twice. -/
theorem C6_counterexample_receiver_duplicated :
    (detect_smurfing
        [⟨"t1", "R", "R", 1, 0⟩, ⟨"t2", "s1", "R", 1, 10⟩,
         ⟨"t3", "s2", "R", 1, 20⟩, ⟨"t4", "s3", "R", 1, 30⟩,
         ⟨"t5", "s4", "R", 1, 40⟩]).1.map FraudRing.member_accounts =
      [["R", "s1", "s2", "s3", "s4", "R"]] ∧
    ¬ (["R", "s1", "s2", "s3", "s4", "R"] : List String).Nodup := by
  constructor
  · rfl
  · decide

/-- **C6** — witness for the amended characterization: five distinct
senders within four minutes yield exactly one smurfing ring ending in the
receiver. -/
theorem C6_smurfing_witness :
    ((detect_smurfing
        [⟨"t1", "s1", "R", 1, 0⟩, ⟨"t2", "s2", "R", 1, 60⟩,
         ⟨"t3", "s3", "R", 1, 120⟩, ⟨"t4", "s4", "R", 1, 180⟩,
         ⟨"t5", "s5", "R", 1, 240⟩]).1.filter
        (fun g => decide (g.member_accounts.getLast? = some "R"))).map
        FraudRing.member_accounts =
      [["s1", "s2", "s3", "s4", "s5", "R"]] := by
  have h := (C6_smurfing_characterization
    [⟨"t1", "s1", "R", 1, 0⟩, ⟨"t2", "s2", "R", 1, 60⟩,
     ⟨"t3", "s3", "R", 1, 120⟩, ⟨"t4", "s4", "R", 1, 180⟩,
     ⟨"t5", "s5", "R", 1, 240⟩] "R" (by decide)).1
  rw [h]
  rfl

/-- Per-account feature row of `detect_anomalies_with_scores`:
`[in_degree, out_degree, total amount sent, total amount received,
in_degree + out_degree]`. -/
def featureRow (G : DiGraph) (df : List Transaction) (account : String) :
    List ℚ :=
  [(G.in_degree account : ℚ), (G.out_degree account : ℚ),
    ((df.filter (fun t => decide (t.sender_id = account))).map
      Transaction.amount).sum,
    ((df.filter (fun t => decide (t.receiver_id = account))).map
      Transaction.amount).sum,
    (G.in_degree account : ℚ) + (G.out_degree account : ℚ)]

/-- `detect_anomalies_with_scores` of `anomaly_detector.py`. The fitted
isolation forest is a randomized ML model, so its decision function enters
as the parameter `decision`; what the embedding keeps of
`IsolationForest.fit` is sklearn's input validation, which raises
`ValueError` on a feature matrix with zero samples — returned here as
`Except.error`. -/
def detect_anomalies_with_scores (G : DiGraph) (df : List Transaction)
    (decision : List (List ℚ) → List ℚ) :
    Except String (List (String × ℚ)) :=
  let accounts := G.nodes
  let features := accounts.map (featureRow G df)
  if features.isEmpty then
    Except.error
      "ValueError: found array with 0 sample(s) while a minimum of 1 is required"
  else
    Except.ok (accounts.zip (decision features))

/-- **C9** — the code, not the claim: on the empty batch the graph has zero
nodes and the anomaly scorer's `IsolationForest.fit` raises on the
zero-row feature matrix instead of returning empty results, so the
pipeline fails (HTTP 500) rather than degrading gracefully as the spec
requires. -/
theorem C9_empty_batch_scorer_raises
    (decision : List (List ℚ) → List ℚ) :
    (build_transaction_graph []).nodes = [] ∧
    detect_anomalies_with_scores (build_transaction_graph []) [] decision =
      Except.error
        "ValueError: found array with 0 sample(s) while a minimum of 1 is required" := by
  exact ⟨rfl, rfl⟩

/-- Successors of `u`, in edge order (networkx adjacency). -/
def DiGraph.succ (G : DiGraph) (u : String) : List String :=
  (G.edges.filter (fun e => decide (e.1.1 = u))).map (fun e => e.1.2)

theorem mem_succ {G : DiGraph} {u v : String} :
    v ∈ G.succ u ↔ G.adj u v := by
  unfold DiGraph.succ DiGraph.adj
  constructor
  · intro h
    obtain ⟨e, he, hev⟩ := List.mem_map.mp h
    obtain ⟨he', heu⟩ := List.mem_filter.mp he
    have heu' : e.1.1 = u := of_decide_eq_true heu
    rw [List.mem_map]
    exact ⟨e, he', by rw [← hev, ← heu']⟩
  · intro h
    obtain ⟨e, he, hev⟩ := List.mem_map.mp h
    rw [List.mem_map]
    refine ⟨e, List.mem_filter.mpr ⟨he, ?_⟩, ?_⟩
    · rw [hev]; simp
    · rw [hev]

/-- Bounded DFS enumerating simple paths to `target`: from current node
`u`, with the path so far in `visited` (which excludes `u`) and at most
`fuel` further edges; returned paths carry the `visited` prefix. This is
the traversal `nx.all_simple_paths` performs. -/
def pathsAux (G : DiGraph) (target : String) :
    ℕ → List String → String → List (List String)
  | fuel, visited, u =>
    if u = target then [visited ++ [u]]
    else
      match fuel with
      | 0 => []
      | Nat.succ fuel' =>
        (G.succ u).flatMap
          (fun v =>
            if v ∈ visited ++ [u] then []
            else pathsAux G target fuel' (visited ++ [u]) v)

/-- `nx.all_simple_paths(G, source, target, cutoff)`: all simple paths
from `source` to `target` with at most `cutoff` edges. -/
def all_simple_paths (G : DiGraph) (source target : String) (cutoff : ℕ) :
    List (List String) :=
  pathsAux G target cutoff [] source

theorem eq_single_of_head_getLast {q : List String} {u : String}
    (h1 : q.head? = some u) (h2 : q.getLast? = some u) (h3 : q.Nodup) :
    q = [u] := by
  cases q with
  | nil => cases h1
  | cons a t =>
    have ha : a = u := by simpa using h1
    subst ha
    cases t with
    | nil => rfl
    | cons b t' =>
      exfalso
      have h2' : (b :: t').getLast? = some a := by
        rw [← h2]
        rfl
      have hmem : a ∈ b :: t' := by
        have hne : (b :: t') ≠ [] := by simp
        rw [List.getLast?_eq_getLast _ hne] at h2'
        have := List.getLast_mem hne
        rwa [Option.some.inj h2'] at this
      rw [List.nodup_cons] at h3
      exact h3.1 hmem

theorem mem_pathsAux (G : DiGraph) (target : String) :
    ∀ (fuel : ℕ) (visited : List String) (u : String),
      u ∉ visited →
      ∀ p : List String,
        (p ∈ pathsAux G target fuel visited u ↔
          ∃ q : List String, p = visited ++ q ∧ q.head? = some u ∧
            q.getLast? = some target ∧ q.Chain' G.adj ∧ q.Nodup ∧
            (∀ x ∈ q, x ∉ visited) ∧ q.length ≤ fuel + 1) := by
  intro fuel
  induction fuel with
  | zero =>
    intro visited u hu p
    rw [pathsAux]
    by_cases hut : u = target
    · subst hut
      rw [if_pos rfl, List.mem_singleton]
      constructor
      · rintro rfl
        refine ⟨[u], rfl, rfl, rfl, List.chain'_singleton u, by simp, ?_, by simp⟩
        intro x hx
        rw [List.mem_singleton] at hx
        rw [hx]
        exact hu
      · rintro ⟨q, hp, hh, _, _, _, _, hlen⟩
        cases q with
        | nil => cases hh
        | cons a t =>
          have ha : a = u := by simpa using hh
          subst ha
          have ht : t = [] := List.eq_nil_of_length_eq_zero (by
            simp only [List.length_cons] at hlen
            omega)
          subst ht
          exact hp
    · simp only [if_neg hut]
      constructor
      · intro h; cases h
      · rintro ⟨q, hp, hh, hl, _, _, _, hlen⟩
        exfalso
        cases q with
        | nil => cases hh
        | cons a t =>
          have ha : a = u := by simpa using hh
          subst ha
          have ht : t = [] := List.eq_nil_of_length_eq_zero (by
            simp only [List.length_cons] at hlen
            omega)
          subst ht
          exact hut (by simpa using hl)
  | succ fuel' ih =>
    intro visited u hu p
    rw [pathsAux]
    by_cases hut : u = target
    · subst hut
      rw [if_pos rfl, List.mem_singleton]
      constructor
      · rintro rfl
        refine ⟨[u], rfl, rfl, rfl, List.chain'_singleton u, by simp, ?_, by simp⟩
        intro x hx
        rw [List.mem_singleton] at hx
        rw [hx]
        exact hu
      · rintro ⟨q, hp, hh, hl, _, hn, _, _⟩
        rw [eq_single_of_head_getLast hh hl hn] at hp
        exact hp
    · simp only [if_neg hut]
      rw [List.mem_flatMap]
      constructor
      · rintro ⟨v, hv, hpf⟩
        by_cases hvv : v ∈ visited ++ [u]
        · rw [if_pos hvv] at hpf; cases hpf
        · rw [if_neg hvv] at hpf
          obtain ⟨q', hp', hh', hl', hc', hn', ha', hlen'⟩ :=
            (ih (visited ++ [u]) v hvv p).mp hpf
          have huq : u ∉ q' := by
            intro hmem
            exact ha' u hmem (by simp)
          refine ⟨u :: q', ?_, rfl, ?_, ?_, ?_, ?_, ?_⟩
          · rw [hp', List.append_assoc]
            rfl
          · have hq'ne : q' ≠ [] := by
              intro h; rw [h] at hh'; cases hh'
            show ([u] ++ q').getLast? = some target
            rw [List.getLast?_append, hl']
            rfl
          · rw [List.chain'_cons']
            refine ⟨?_, hc'⟩
            intro b hb
            rw [hh'] at hb
            have hb' : v = b := by simpa using hb
            rw [← hb']
            exact mem_succ.mp hv
          · rw [List.nodup_cons]
            exact ⟨huq, hn'⟩
          · intro x hx
            rcases List.mem_cons.mp hx with rfl | hx
            · exact hu
            · intro hxv
              exact ha' x hx (by simp [hxv])
          · simp only [List.length_cons]
            omega
      · rintro ⟨q, hp, hh, hl, hc, hn, ha, hlen⟩
        cases q with
        | nil => cases hh
        | cons a q' =>
          have hau : a = u := by simpa using hh
          subst hau
          have hq'ne : q' ≠ [] := by
            intro h
            subst h
            exact hut (by simpa using hl)
          rw [List.nodup_cons] at hn
          obtain ⟨huq', hn'⟩ := hn
          obtain ⟨v, hv⟩ := Option.isSome_iff_exists.mp
            (by rw [List.head?_isSome]; exact hq'ne)
          have hvq' : v ∈ q' := by
            cases q' with
            | nil => cases hv
            | cons b t =>
              have hbv : b = v := by simpa using hv
              rw [← hbv]
              simp
          have hadj : G.adj a v := by
            rw [List.chain'_cons'] at hc
            exact hc.1 v (by rw [hv]; rfl)
          refine ⟨v, mem_succ.mpr hadj, ?_⟩
          have hvv : v ∉ visited ++ [a] := by
            rw [List.mem_append, List.mem_singleton]
            rintro (h | h)
            · exact ha v (by simp [hvq']) h
            · rw [h] at hvq'
              exact huq' hvq'
          rw [if_neg hvv]
          rw [ih (visited ++ [a]) v hvv p]
          refine ⟨q', ?_, hv, ?_, ?_, hn', ?_, ?_⟩
          · rw [hp, List.append_assoc]
            rfl
          · have : (a :: q').getLast? = q'.getLast? := by
              show ([a] ++ q').getLast? = q'.getLast?
              rw [List.getLast?_append]
              obtain ⟨w, hw⟩ := Option.isSome_iff_exists.mp
                (by rw [List.getLast?_isSome]; exact hq'ne)
              rw [hw]
              rfl
            rw [← this]
            exact hl
          · rw [List.chain'_cons'] at hc
            exact hc.2
          · intro x hx
            rw [List.mem_append, List.mem_singleton]
            rintro (h | h)
            · exact ha x (by simp [hx]) h
            · rw [h] at hx
              exact huq' hx
          · simp only [List.length_cons] at hlen
            omega

theorem mem_all_simple_paths (G : DiGraph) (source target : String)
    (cutoff : ℕ) (p : List String) :
    p ∈ all_simple_paths G source target cutoff ↔
      p.head? = some source ∧ p.getLast? = some target ∧
      p.Chain' G.adj ∧ p.Nodup ∧ p.length ≤ cutoff + 1 := by
  unfold all_simple_paths
  rw [mem_pathsAux G target cutoff [] source (by simp) p]
  constructor
  · rintro ⟨q, hp, hh, hl, hc, hn, _, hlen⟩
    rw [List.nil_append] at hp
    subst hp
    exact ⟨hh, hl, hc, hn, hlen⟩
  · rintro ⟨hh, hl, hc, hn, hlen⟩
    exact ⟨p, by simp, hh, hl, hc, hn, by simp, hlen⟩

theorem nodup_succ (G : DiGraph) (hkeys : (G.edges.map Prod.fst).Nodup)
    (u : String) : (G.succ u).Nodup := by
  unfold DiGraph.succ
  have h1 : (G.edges.filter (fun e => decide (e.1.1 = u))).map
      (fun e => e.1.2) =
      ((G.edges.filter (fun e => decide (e.1.1 = u))).map Prod.fst).map
        Prod.snd := by
    rw [List.map_map]
    rfl
  rw [h1]
  have h2 : ((G.edges.filter
      (fun e => decide (e.1.1 = u))).map Prod.fst).Nodup :=
    List.Nodup.sublist (List.Sublist.map _ (List.filter_sublist _)) hkeys
  have h3 : ∀ k ∈ (G.edges.filter
      (fun e => decide (e.1.1 = u))).map Prod.fst, k.1 = u := by
    intro k hk
    obtain ⟨e, he, rfl⟩ := List.mem_map.mp hk
    exact of_decide_eq_true (List.mem_filter.mp he).2
  apply List.Nodup.map_on _ h2
  intro x hx y hy hxy
  have hx1 : x.1 = u := h3 x hx
  have hy1 : y.1 = u := h3 y hy
  exact Prod.ext (hx1.trans hy1.symm) hxy

theorem nodup_pathsAux (G : DiGraph)
    (hkeys : (G.edges.map Prod.fst).Nodup) (target : String) :
    ∀ (fuel : ℕ) (visited : List String) (u : String), u ∉ visited →
      (pathsAux G target fuel visited u).Nodup := by
  intro fuel
  induction fuel with
  | zero =>
    intro visited u _
    rw [pathsAux]
    split
    · exact List.nodup_singleton _
    · exact List.nodup_nil
  | succ fuel' ih =>
    intro visited u hu
    rw [pathsAux]
    split
    · exact List.nodup_singleton _
    · rw [List.nodup_flatMap]
      constructor
      · intro v _
        by_cases hvv : v ∈ visited ++ [u]
        · rw [if_pos hvv]; exact List.nodup_nil
        · rw [if_neg hvv]; exact ih _ v hvv
      · apply List.Pairwise.imp ?_ (nodup_succ G hkeys u)
        intro v1 v2 hne
        intro p hp1 hp2
        beta_reduce at hp1 hp2
        by_cases h1 : v1 ∈ visited ++ [u]
        · rw [if_pos h1] at hp1; cases hp1
        · by_cases h2 : v2 ∈ visited ++ [u]
          · rw [if_pos h2] at hp2; cases hp2
          · rw [if_neg h1] at hp1
            rw [if_neg h2] at hp2
            obtain ⟨q1, hpq1, hh1, _⟩ :=
              (mem_pathsAux G target fuel' _ v1 h1 p).mp hp1
            obtain ⟨q2, hpq2, hh2, _⟩ :=
              (mem_pathsAux G target fuel' _ v2 h2 p).mp hp2
            have hq : q1 = q2 :=
              List.append_cancel_left (hpq1.symm.trans hpq2)
            rw [hq] at hh1
            rw [hh1] at hh2
            exact hne (Option.some.inj hh2)

theorem nodup_all_simple_paths (G : DiGraph)
    (hkeys : (G.edges.map Prod.fst).Nodup) (source target : String)
    (cutoff : ℕ) : (all_simple_paths G source target cutoff).Nodup :=
  nodup_pathsAux G hkeys target cutoff [] source (by simp)

/-- The path filter of `detect_shell_chains`: at least `min_length = 4`
nodes, and every intermediate node (`path[1:-1]`) has in-degree ≤ 2 and
out-degree ≤ 2 in the full graph. -/
def validShellPath (G : DiGraph) (p : List String) : Bool :=
  decide (4 ≤ p.length) &&
    (p.drop 1).dropLast.all
      (fun node => decide (G.in_degree node ≤ 2) &&
        decide (G.out_degree node ≤ 2))

/-- The qualifying paths of `detect_shell_chains`, in enumeration order:
for every ordered pair of distinct nodes, the simple paths with at most 6
edges (`cutoff=6`) that pass the shell filter. -/
def shellPaths (G : DiGraph) : List (List String) :=
  G.nodes.flatMap (fun source =>
    G.nodes.flatMap (fun target =>
      if source ≠ target then
        (all_simple_paths G source target 6).filter (validShellPath G)
      else []))

/-- Ring records for the qualifying paths, numbered from `k`
(`ring_counter` starts at 1). -/
def shellRings (k : ℕ) : List (List String) → List FraudRing
  | [] => []
  | p :: ps =>
    ⟨"SHELL_" ++ pad3 k, p, "shell_chain"⟩ :: shellRings (k + 1) ps

/-- `detect_shell_chains` of `shell_detector.py`. -/
def detect_shell_chains (G : DiGraph) : List FraudRing × List AccountRec :=
  let rings := shellRings 1 (shellPaths G)
  (rings,
    rings.flatMap (fun g => g.member_accounts.map (fun a =>
      AccountRec.mk a ["shell_chain"] g.ring_id)))

theorem shellRings_members (ps : List (List String)) : ∀ k : ℕ,
    (shellRings k ps).map FraudRing.member_accounts = ps := by
  induction ps with
  | nil => intro k; rfl
  | cons p ps ih =>
    intro k
    simp only [shellRings, List.map_cons, ih]

theorem chain_subset_nodes (G : DiGraph)
    (hwf : ∀ e ∈ G.edges, e.1.1 ∈ G.nodes ∧ e.1.2 ∈ G.nodes) :
    ∀ p : List String, p.Chain' G.adj →
      (∀ y ∈ p.head?, y ∈ G.nodes) → ∀ x ∈ p, x ∈ G.nodes := by
  intro p
  induction p with
  | nil => intro _ _ x hx; cases hx
  | cons a t ih =>
    intro hc hh x hx
    have ha : a ∈ G.nodes := hh a rfl
    rcases List.mem_cons.mp hx with rfl | hx
    · exact ha
    · apply ih (List.chain'_cons'.mp hc).2 _ x hx
      intro y hy
      have hadj : G.adj a y := (List.chain'_cons'.mp hc).1 y hy
      unfold DiGraph.adj at hadj
      obtain ⟨e, he, hey⟩ := List.mem_map.mp hadj
      have h2 : e.1.2 = y := congrArg Prod.snd hey
      rw [← h2]
      exact (hwf e he).2

theorem foldl_updAssoc_keys_nodup {K V α : Type} [DecidableEq K]
    (key : α → K) (val : α → V) (l : List α) (m0 : List (K × V))
    (h : (m0.map Prod.fst).Nodup) :
    ((l.foldl (fun m x => updAssoc m (key x) (val x)) m0).map
      Prod.fst).Nodup := by
  induction l generalizing m0 with
  | nil => exact h
  | cons x t ih => exact ih _ (updAssoc_keys_nodup h _ _)

theorem build_keys_nodup (df : List Transaction) :
    ((build_transaction_graph df).edges.map Prod.fst).Nodup := by
  rw [build_edges]
  exact foldl_updAssoc_keys_nodup
    (fun row : Transaction => (row.sender_id, row.receiver_id))
    (fun row : Transaction => EdgeData.mk row.amount row.timestamp)
    df [] (by simp)

theorem buildStep_wf {G : DiGraph}
    (hwf : ∀ e ∈ G.edges, e.1.1 ∈ G.nodes ∧ e.1.2 ∈ G.nodes)
    (row : Transaction) :
    ∀ e ∈ (buildStep G row).edges,
      e.1.1 ∈ (buildStep G row).nodes ∧ e.1.2 ∈ (buildStep G row).nodes := by
  intro e he
  rw [buildStep_edges] at he
  rcases updAssoc_mem he with h | h
  · obtain ⟨h1, h2⟩ := hwf e h
    exact ⟨mem_nodes_buildStep h1 row, mem_nodes_buildStep h2 row⟩
  · obtain ⟨hs, hr⟩ := endpoints_mem_buildStep G row
    rw [h]
    exact ⟨hs, hr⟩

theorem build_wf (df : List Transaction) :
    ∀ e ∈ (build_transaction_graph df).edges,
      e.1.1 ∈ (build_transaction_graph df).nodes ∧
        e.1.2 ∈ (build_transaction_graph df).nodes := by
  rw [build_eq_foldl]
  suffices h : ∀ G0 : DiGraph,
      (∀ e ∈ G0.edges, e.1.1 ∈ G0.nodes ∧ e.1.2 ∈ G0.nodes) →
      ∀ e ∈ (df.foldl buildStep G0).edges,
        e.1.1 ∈ (df.foldl buildStep G0).nodes ∧
          e.1.2 ∈ (df.foldl buildStep G0).nodes from
    h ⟨[], []⟩ (by intro e he; cases he)
  induction df with
  | nil => intro G0 h; exact h
  | cons x t ih =>
    intro G0 h
    simp only [List.foldl_cons]
    exact ih _ (buildStep_wf h x)

theorem build_nodes_nodup (df : List Transaction) :
    (build_transaction_graph df).nodes.Nodup := by
  rw [build_eq_foldl]
  suffices h : ∀ G0 : DiGraph, G0.nodes.Nodup →
      (df.foldl buildStep G0).nodes.Nodup from h ⟨[], []⟩ (by simp)
  induction df with
  | nil => intro G0 h; exact h
  | cons x t ih =>
    intro G0 h
    simp only [List.foldl_cons]
    apply ih
    have hstep : ∀ (G : DiGraph) (v : String), G.nodes.Nodup →
        (G.add_node v).nodes.Nodup := by
      intro G v hG
      unfold DiGraph.add_node
      split
      · exact hG
      · rename_i hv
        simp [List.nodup_append, hG, hv]
    unfold buildStep DiGraph.add_edge
    exact hstep _ _ (hstep _ _ (hstep _ _ (hstep _ _ h)))

theorem head_ne_getLast_of_nodup {p : List String} {s t : String}
    (hh : p.head? = some s) (hl : p.getLast? = some t) (hn : p.Nodup)
    (hlen : 2 ≤ p.length) : s ≠ t := by
  intro he
  subst he
  have h1 := eq_single_of_head_getLast hh hl hn
  rw [h1] at hlen
  simp at hlen

/-- **C3** — corrected. The shell-chain detector emits one `shell_chain`
ring for exactly the simple paths of the graph with at most **6 edges
(7 nodes)** — `cutoff=6` in the code, not the claimed 7 edges / 8 nodes —
that have at least 4 nodes and whose intermediate nodes all have in- and
out-degree at most 2 in the full graph; each such path is emitted exactly
once. -/
theorem C3_shell_chain_paths (G : DiGraph) (hnd : G.nodes.Nodup)
    (hkeys : (G.edges.map Prod.fst).Nodup)
    (hwf : ∀ e ∈ G.edges, e.1.1 ∈ G.nodes ∧ e.1.2 ∈ G.nodes)
    (p : List String) :
    (p ∈ (detect_shell_chains G).1.map FraudRing.member_accounts ↔
      (p.Nodup ∧ p.Chain' G.adj ∧ (∀ x ∈ p, x ∈ G.nodes) ∧
        4 ≤ p.length ∧ p.length ≤ 7 ∧
        ∀ node ∈ (p.drop 1).dropLast,
          G.in_degree node ≤ 2 ∧ G.out_degree node ≤ 2)) ∧
    ((detect_shell_chains G).1.map FraudRing.member_accounts).Nodup := by
  have hm : (detect_shell_chains G).1.map FraudRing.member_accounts =
      shellPaths G := shellRings_members (shellPaths G) 1
  rw [hm]
  constructor
  · unfold shellPaths
    rw [List.mem_flatMap]
    constructor
    · rintro ⟨s, hs, hp⟩
      rw [List.mem_flatMap] at hp
      obtain ⟨t, _, hp⟩ := hp
      by_cases hst : s ≠ t
      · rw [if_pos hst] at hp
        obtain ⟨hmem, hvalid⟩ := List.mem_filter.mp hp
        obtain ⟨hh, hl, hc, hn, hlen⟩ :=
          (mem_all_simple_paths G s t 6 p).mp hmem
        unfold validShellPath at hvalid
        rw [Bool.and_eq_true] at hvalid
        obtain ⟨h4, hint⟩ := hvalid
        refine ⟨hn, hc, ?_, of_decide_eq_true h4, hlen, ?_⟩
        · apply chain_subset_nodes G hwf p hc
          intro y hy
          have hys : s = y := by
            rw [hh] at hy
            simpa using hy
          rw [← hys]
          exact hs
        · intro node hnode
          have hb := List.all_eq_true.mp hint node hnode
          rw [Bool.and_eq_true] at hb
          exact ⟨of_decide_eq_true hb.1, of_decide_eq_true hb.2⟩
      · rw [if_neg hst] at hp
        cases hp
    · rintro ⟨hn, hc, hsub, h4, h7, hint⟩
      have hpne : p ≠ [] := by
        intro h
        rw [h] at h4
        simp at h4
      obtain ⟨s, hh⟩ := Option.isSome_iff_exists.mp
        (by rw [List.head?_isSome]; exact hpne)
      obtain ⟨t, hl⟩ := Option.isSome_iff_exists.mp
        (by rw [List.getLast?_isSome]; exact hpne)
      have hst : s ≠ t := head_ne_getLast_of_nodup hh hl hn (by omega)
      refine ⟨s, hsub s (List.mem_of_mem_head? (by rw [hh]; rfl)), ?_⟩
      rw [List.mem_flatMap]
      refine ⟨t, hsub t (List.mem_of_mem_getLast? (by rw [hl]; rfl)), ?_⟩
      rw [if_pos hst]
      apply List.mem_filter.mpr
      refine ⟨(mem_all_simple_paths G s t 6 p).mpr ⟨hh, hl, hc, hn, h7⟩, ?_⟩
      unfold validShellPath
      rw [Bool.and_eq_true]
      refine ⟨decide_eq_true h4, List.all_eq_true.mpr ?_⟩
      intro node hnode
      rw [Bool.and_eq_true]
      exact ⟨decide_eq_true (hint node hnode).1,
        decide_eq_true (hint node hnode).2⟩
  · unfold shellPaths
    rw [List.nodup_flatMap]
    constructor
    · intro s _
      rw [List.nodup_flatMap]
      constructor
      · intro t _
        by_cases hst : s ≠ t
        · rw [if_pos hst]
          exact List.Nodup.filter _ (nodup_all_simple_paths G hkeys s t 6)
        · rw [if_neg hst]
          exact List.nodup_nil
      · apply List.Pairwise.imp ?_ hnd
        intro t1 t2 hne p hp1 hp2
        beta_reduce at hp1 hp2
        by_cases h1 : s ≠ t1
        · by_cases h2 : s ≠ t2
          · rw [if_pos h1] at hp1
            rw [if_pos h2] at hp2
            have hl1 := ((mem_all_simple_paths G s t1 6 p).mp
              (List.mem_filter.mp hp1).1).2.1
            have hl2 := ((mem_all_simple_paths G s t2 6 p).mp
              (List.mem_filter.mp hp2).1).2.1
            rw [hl1] at hl2
            exact hne (Option.some.inj hl2)
          · rw [if_neg h2] at hp2
            cases hp2
        · rw [if_neg h1] at hp1
          cases hp1
    · apply List.Pairwise.imp ?_ hnd
      intro s1 s2 hne p hp1 hp2
      rw [List.mem_flatMap] at hp1 hp2
      obtain ⟨t1, _, hp1⟩ := hp1
      obtain ⟨t2, _, hp2⟩ := hp2
      by_cases h1 : s1 ≠ t1
      · by_cases h2 : s2 ≠ t2
        · rw [if_pos h1] at hp1
          rw [if_pos h2] at hp2
          have hh1 := ((mem_all_simple_paths G s1 t1 6 p).mp
            (List.mem_filter.mp hp1).1).1
          have hh2 := ((mem_all_simple_paths G s2 t2 6 p).mp
            (List.mem_filter.mp hp2).1).1
          rw [hh1] at hh2
          exact hne (Option.some.inj hh2)
        · rw [if_neg h2] at hp2
          cases hp2
      · rw [if_neg h1] at hp1
        cases hp1

/-- An eight-account chain `A1→A2→…→A8`, one transaction per hop. -/
def chainBatch : List Transaction :=
  [⟨"x1", "A1", "A2", 1, 0⟩, ⟨"x2", "A2", "A3", 1, 0⟩,
   ⟨"x3", "A3", "A4", 1, 0⟩, ⟨"x4", "A4", "A5", 1, 0⟩,
   ⟨"x5", "A5", "A6", 1, 0⟩, ⟨"x6", "A6", "A7", 1, 0⟩,
   ⟨"x7", "A7", "A8", 1, 0⟩]

/-- **C3** — counterexample: the full 8-node simple path of the chain has
exactly 7 edges, at least 4 nodes, and pass-through intermediaries, so the
claim says a ring is emitted for it — but `cutoff=6` stops the enumeration
at 6 edges and no ring contains it. -/
theorem C3_counterexample_seven_edge_path :
    (["A1", "A2", "A3", "A4", "A5", "A6", "A7", "A8"] :
        List String).Nodup ∧
    List.Chain' (build_transaction_graph chainBatch).adj
      ["A1", "A2", "A3", "A4", "A5", "A6", "A7", "A8"] ∧
    (∀ x ∈ (["A1", "A2", "A3", "A4", "A5", "A6", "A7", "A8"] : List String),
      x ∈ (build_transaction_graph chainBatch).nodes) ∧
    (∀ node ∈ ((["A1", "A2", "A3", "A4", "A5", "A6", "A7", "A8"] :
        List String).drop 1).dropLast,
      (build_transaction_graph chainBatch).in_degree node ≤ 2 ∧
        (build_transaction_graph chainBatch).out_degree node ≤ 2) ∧
    ["A1", "A2", "A3", "A4", "A5", "A6", "A7", "A8"] ∉
      (detect_shell_chains (build_transaction_graph chainBatch)).1.map
        FraudRing.member_accounts := by
  decide

/-- **C3** — witness for the amended characterization: the 4-node prefix
path of the chain is emitted. -/
theorem C3_shell_witness :
    ["A1", "A2", "A3", "A4"] ∈
      (detect_shell_chains (build_transaction_graph chainBatch)).1.map
        FraudRing.member_accounts :=
  (C3_shell_chain_paths (build_transaction_graph chainBatch)
    (build_nodes_nodup chainBatch) (build_keys_nodup chainBatch)
    (build_wf chainBatch) ["A1", "A2", "A3", "A4"]).1.mpr (by decide)

/-- Every list of distinct values drawn from `nodes`: all permutations of
all sublists. -/
def allNodeSeqs (nodes : List String) : List (List String) :=
  nodes.sublists.flatMap List.permutations'

theorem mem_allNodeSeqs_of (nodes : List String) (p : List String)
    (hnd : p.Nodup) (hsub : ∀ x ∈ p, x ∈ nodes) : p ∈ allNodeSeqs nodes := by
  unfold allNodeSeqs
  rw [List.mem_flatMap]
  obtain ⟨s, hs, hsl⟩ := hnd.subperm hsub
  exact ⟨s, List.mem_sublists.mpr hsl, List.mem_permutations'.mpr hs.symm⟩

theorem of_mem_allNodeSeqs {nodes p : List String}
    (hnd : nodes.Nodup) (h : p ∈ allNodeSeqs nodes) :
    p.Nodup ∧ ∀ x ∈ p, x ∈ nodes := by
  unfold allNodeSeqs at h
  rw [List.mem_flatMap] at h
  obtain ⟨s, hs, hp⟩ := h
  have hsl : s.Sublist nodes := List.mem_sublists.mp hs
  have hperm : p.Perm s := List.mem_permutations'.mp hp
  constructor
  · exact hperm.nodup_iff.mpr (hsl.nodup hnd)
  · intro x hx
    exact hsl.subset (hperm.subset hx)

theorem sublist_eq_of_perm :
    ∀ (l : List String), l.Nodup → ∀ s1 s2 : List String,
      s1.Sublist l → s2.Sublist l → s1.Perm s2 → s1 = s2 := by
  intro l
  induction l with
  | nil =>
    intro _ s1 s2 h1 h2 _
    rw [List.sublist_nil.mp h1, List.sublist_nil.mp h2]
  | cons a t ih =>
    intro hnd s1 s2 h1 h2 hp
    rw [List.nodup_cons] at hnd
    obtain ⟨hat, hndt⟩ := hnd
    rcases List.sublist_cons_iff.mp h1 with h1' | ⟨r1, rfl, hr1⟩
    · rcases List.sublist_cons_iff.mp h2 with h2' | ⟨r2, rfl, hr2⟩
      · exact ih hndt s1 s2 h1' h2' hp
      · exfalso
        have ha1 : a ∈ s1 := hp.symm.subset (by simp)
        exact hat (h1'.subset ha1)
    · rcases List.sublist_cons_iff.mp h2 with h2' | ⟨r2, rfl, hr2⟩
      · exfalso
        have ha2 : a ∈ s2 := hp.subset (by simp)
        exact hat (h2'.subset ha2)
      · have := ih hndt r1 r2 hr1 hr2 hp.cons_inv
        rw [this]

theorem nodup_allNodeSeqs (nodes : List String) (hnd : nodes.Nodup) :
    (allNodeSeqs nodes).Nodup := by
  unfold allNodeSeqs
  rw [List.nodup_flatMap]
  constructor
  · intro s hs
    exact (List.permutations_perm_permutations' s).nodup_iff.mp
      (List.nodup_permutations s ((List.mem_sublists.mp hs).nodup hnd))
  · have hpair : nodes.sublists.Nodup := List.nodup_sublists.mpr hnd
    apply List.Pairwise.imp_of_mem ?_ hpair
    intro s1 s2 hs1 hs2 hne p hp1 hp2
    apply hne
    apply sublist_eq_of_perm nodes hnd s1 s2
      (List.mem_sublists.mp hs1) (List.mem_sublists.mp hs2)
    exact (List.mem_permutations'.mp hp1).symm.trans
      (List.mem_permutations'.mp hp2)

/-- Executable cyclic-adjacency check: consecutive edges plus the closing
edge from the last node back to the first. -/
def cycOk (G : DiGraph) : List String → Bool
  | [] => true
  | a :: rest => chainB (fun x y => decide (G.adj x y)) a (rest ++ [a])

theorem cycOk_iff (G : DiGraph) (c : List String) :
    cycOk G c = true ↔ Cycle.Chain G.adj (c : Cycle String) := by
  cases c with
  | nil =>
    constructor
    · intro _; exact Cycle.Chain.nil G.adj
    · intro _; rfl
  | cons a rest =>
    rw [Cycle.chain_coe_cons]
    exact chainB_iff G.adj a (rest ++ [a])

/-- `nx.simple_cycles(G)` modelled by its documented semantics — every
simple directed cycle of the graph exactly once, with no duplicates under
rotation — realised as the rotation whose head comes earliest in the node
list. -/
def simple_cycles (G : DiGraph) : List (List String) :=
  (allNodeSeqs G.nodes).filter
    (fun c => !c.isEmpty && cycOk G c &&
      decide (∀ x ∈ c, ∀ y ∈ c.head?,
        G.nodes.indexOf y ≤ G.nodes.indexOf x))

/-- `detect_cycles` of `cycle_detector.py`: keep the simple cycles whose
member count lies in `[min_length, max_length] = [3, 5]`. -/
def detect_cycles (G : DiGraph) (min_length : ℕ := 3)
    (max_length : ℕ := 5) : List (List String) :=
  (simple_cycles G).filter
    (fun c => decide (min_length ≤ c.length ∧ c.length ≤ max_length))

/-- A simple directed cycle, given as its node list read cyclically. -/
def IsSimpleCycle (G : DiGraph) (c : List String) : Prop :=
  c ≠ [] ∧ c.Nodup ∧ (∀ x ∈ c, x ∈ G.nodes) ∧
    Cycle.Chain G.adj (c : Cycle String)

theorem listExistsMinBy (f : String → ℕ) :
    ∀ l : List String, l ≠ [] → ∃ b ∈ l, ∀ x ∈ l, f b ≤ f x := by
  intro l
  induction l with
  | nil => intro h; exact absurd rfl h
  | cons a t ih =>
    intro _
    cases t with
    | nil => exact ⟨a, by simp, by simp⟩
    | cons c t' =>
      obtain ⟨b, hb, hmin⟩ := ih (by simp)
      by_cases hab : f a ≤ f b
      · refine ⟨a, by simp, ?_⟩
        intro x hx
        rcases List.mem_cons.mp hx with rfl | hx
        · exact le_refl _
        · exact le_trans hab (hmin x hx)
      · refine ⟨b, by simp [hb], ?_⟩
        intro x hx
        rcases List.mem_cons.mp hx with rfl | hx
        · exact le_of_lt (not_le.mp hab)
        · exact hmin x hx

theorem exists_canonical_rotation (nodes : List String) (c : List String)
    (hne : c ≠ []) :
    ∃ c' : List String, c.IsRotated c' ∧
      ∀ x ∈ c', ∀ y ∈ c'.head?, nodes.indexOf y ≤ nodes.indexOf x := by
  obtain ⟨m, hm, hmin⟩ :=
    listExistsMinBy (fun x => nodes.indexOf x) c hne
  obtain ⟨i, hi, hgi⟩ := List.mem_iff_getElem.mp hm
  refine ⟨c.rotate i, ⟨i, rfl⟩, ?_⟩
  intro x hx y hy
  have hrot : c.IsRotated (c.rotate i) := ⟨i, rfl⟩
  have hhead : (c.rotate i).head? = some m := by
    rw [List.head?_rotate hi]
    rw [List.getElem?_eq_getElem hi]
    rw [hgi]
  rw [hhead] at hy
  have hym : m = y := by simpa using hy
  rw [← hym]
  exact hmin x (hrot.mem_iff.mpr hx)

theorem canonical_rotation_unique (nodes : List String)
    {c1 c2 : List String} (hrot : c1.IsRotated c2) (hnd : c1.Nodup)
    (hsub : ∀ x ∈ c1, x ∈ nodes)
    (h1 : ∀ x ∈ c1, ∀ y ∈ c1.head?, nodes.indexOf y ≤ nodes.indexOf x)
    (h2 : ∀ x ∈ c2, ∀ y ∈ c2.head?, nodes.indexOf y ≤ nodes.indexOf x) :
    c1 = c2 := by
  cases hc1 : c1 with
  | nil =>
    subst hc1
    obtain ⟨n, hn⟩ := hrot
    rw [← hn]
    simp
  | cons a t =>
    rw [← hc1]
    have hne1 : c1 ≠ [] := by rw [hc1]; simp
    have hne2 : c2 ≠ [] := by
      intro h
      rw [h] at hrot
      obtain ⟨n, hn⟩ := hrot
      rw [List.rotate_eq_nil_iff] at hn
      exact hne1 hn
    obtain ⟨m1, hh1⟩ := Option.isSome_iff_exists.mp
      (by rw [List.head?_isSome]; exact hne1)
    obtain ⟨m2, hh2⟩ := Option.isSome_iff_exists.mp
      (by rw [List.head?_isSome]; exact hne2)
    have hm1c1 : m1 ∈ c1 := List.mem_of_mem_head? (by rw [hh1]; rfl)
    have hm2c2 : m2 ∈ c2 := List.mem_of_mem_head? (by rw [hh2]; rfl)
    have hm2c1 : m2 ∈ c1 := hrot.mem_iff.mpr hm2c2
    have hm1c2 : m1 ∈ c2 := hrot.mem_iff.mp hm1c1
    have hle1 : nodes.indexOf m1 ≤ nodes.indexOf m2 :=
      h1 m2 hm2c1 m1 (by rw [hh1]; rfl)
    have hle2 : nodes.indexOf m2 ≤ nodes.indexOf m1 :=
      h2 m1 hm1c2 m2 (by rw [hh2]; rfl)
    have hm12 : m1 = m2 :=
      (List.indexOf_inj (hsub m1 hm1c1) (hsub m2 (hrot.mem_iff.mpr hm2c2))).mp
        (le_antisymm hle1 hle2)
    obtain ⟨n, hnle, hn⟩ := List.isRotated_iff_mod.mp hrot
    rcases Nat.lt_or_ge n c1.length with hlt | hge
    · have hh2' : c1[n]? = some m2 := by
        rw [← List.head?_rotate hlt, hn, hh2]
      have hh1' : c1[0]? = some m1 := by
        rw [← hh1, List.head?_eq_getElem?]
      have h0 : 0 < c1.length := List.length_pos.mpr hne1
      rw [List.getElem?_eq_getElem hlt] at hh2'
      rw [List.getElem?_eq_getElem h0] at hh1'
      have heq : c1[n] = c1[0] := by
        rw [Option.some.inj hh2', Option.some.inj hh1', hm12]
      have hn0 : n = 0 := (hnd.getElem_inj_iff.mp heq)
      rw [← hn, hn0, List.rotate_zero]
    · have hnlen : n = c1.length := le_antisymm hnle hge
      rw [← hn, hnlen, List.rotate_length]

theorem mem_detect_cycles_elim {G : DiGraph} (hnd : G.nodes.Nodup)
    {c : List String} (h : c ∈ detect_cycles G) :
    IsSimpleCycle G c ∧ 3 ≤ c.length ∧ c.length ≤ 5 ∧
      ∀ x ∈ c, ∀ y ∈ c.head?, G.nodes.indexOf y ≤ G.nodes.indexOf x := by
  unfold detect_cycles at h
  obtain ⟨h, hlen⟩ := List.mem_filter.mp h
  have hlen' := of_decide_eq_true hlen
  unfold simple_cycles at h
  obtain ⟨h, hb⟩ := List.mem_filter.mp h
  rw [Bool.and_eq_true, Bool.and_eq_true] at hb
  obtain ⟨⟨hne, hcyc⟩, hcan⟩ := hb
  obtain ⟨hnodup, hsub⟩ := of_mem_allNodeSeqs hnd h
  have hne' : c ≠ [] := by
    intro hc
    rw [hc] at hne
    simp at hne
  exact ⟨⟨hne', hnodup, hsub, (cycOk_iff G c).mp hcyc⟩,
    hlen'.1, hlen'.2, of_decide_eq_true hcan⟩

/-- **C8** — confirmed. `detect_cycles` returns exactly the simple
directed cycles with member count in `[3, 5]`: every returned list is such
a cycle; every such cycle of the graph is returned, up to rotation of its
node sequence; and no two distinct returned cycles are rotations of each
other. -/
theorem C8_cycle_exactness (G : DiGraph) (hnd : G.nodes.Nodup) :
    (∀ c ∈ detect_cycles G,
      IsSimpleCycle G c ∧ 3 ≤ c.length ∧ c.length ≤ 5) ∧
    (∀ c : List String, IsSimpleCycle G c → 3 ≤ c.length → c.length ≤ 5 →
      ∃ c' ∈ detect_cycles G, c.IsRotated c') ∧
    (∀ c1 ∈ detect_cycles G, ∀ c2 ∈ detect_cycles G,
      c1 ≠ c2 → ¬ c1.IsRotated c2) := by
  refine ⟨?_, ?_, ?_⟩
  · intro c hc
    obtain ⟨h1, h2, h3, _⟩ := mem_detect_cycles_elim hnd hc
    exact ⟨h1, h2, h3⟩
  · intro c hc h3 h5
    obtain ⟨hne, hnodup, hsub, hchain⟩ := hc
    obtain ⟨c', hrot, hcan⟩ := exists_canonical_rotation G.nodes c hne
    have hndc' : c'.Nodup := hrot.nodup_iff.mp hnodup
    have hsubc' : ∀ x ∈ c', x ∈ G.nodes := fun x hx =>
      hsub x (hrot.mem_iff.mpr hx)
    have hnec' : c' ≠ [] := by
      intro h
      rw [h] at hrot
      obtain ⟨n, hn⟩ := hrot
      rw [List.rotate_eq_nil_iff] at hn
      exact hne hn
    have hlenc' : c'.length = c.length := hrot.perm.length_eq.symm
    have hchainc' : Cycle.Chain G.adj (c' : Cycle String) := by
      have hco : (c : Cycle String) = (c' : Cycle String) :=
        Cycle.coe_eq_coe.mpr hrot
      rw [← hco]
      exact hchain
    refine ⟨c', ?_, hrot⟩
    unfold detect_cycles
    apply List.mem_filter.mpr
    refine ⟨?_, decide_eq_true ⟨by omega, by omega⟩⟩
    unfold simple_cycles
    apply List.mem_filter.mpr
    refine ⟨mem_allNodeSeqs_of G.nodes c' hndc' hsubc', ?_⟩
    rw [Bool.and_eq_true, Bool.and_eq_true]
    refine ⟨⟨?_, (cycOk_iff G c').mpr hchainc'⟩, decide_eq_true hcan⟩
    cases c' with
    | nil => exact absurd rfl hnec'
    | cons a t => rfl
  · intro c1 hc1 c2 hc2 hne12 hrot
    obtain ⟨⟨_, hnd1, hsub1, _⟩, _, _, hcan1⟩ := mem_detect_cycles_elim hnd hc1
    obtain ⟨_, _, _, hcan2⟩ := mem_detect_cycles_elim hnd hc2
    exact hne12
      (canonical_rotation_unique G.nodes hrot hnd1 hsub1 hcan1 hcan2)

/-- A three-account cycle `A→B→C→A`. -/
def triBatch : List Transaction :=
  [⟨"t1", "A", "B", 1, 0⟩, ⟨"t2", "B", "C", 1, 0⟩, ⟨"t3", "C", "A", 1, 0⟩]

/-- **C8** — witness at the triangle `A→B→C→A`: the returned cycle is a
simple cycle with 3 members in the window. -/
theorem C8_cycle_witness :
    IsSimpleCycle (build_transaction_graph triBatch) ["A", "B", "C"] ∧
    3 ≤ (["A", "B", "C"] : List String).length ∧
    (["A", "B", "C"] : List String).length ≤ 5 :=
  (C8_cycle_exactness (build_transaction_graph triBatch)
    (build_nodes_nodup triBatch)).1 ["A", "B", "C"] (by decide)
